import Mathlib

/-!
# Verification of rust-nonsmallnum

A shallow embedding of src/lib.rs: an arbitrary-precision unsigned integer
stored as a little-endian vector of base-10 digits, with addition, checked
subtraction, multiplication, scalar and full long division, ordering, and
decimal parse/format.

Machine integers (u8/u32/u64) are modelled as Nat.  Every intermediate value
in the source fits its machine word (the widest intermediate is
carry * 10 + digit in u64 scalar division, below 2^64 whenever carry < 2^32),
so unsigned arithmetic is exact and no wrap-around modelling is needed; the
two wrapping_sub occurrences are noted at their definitions.  Fallible
operations return Option, matching the source.
-/

/-- Base-10 digits of a machine integer, least-significant first ([] for 0):
the model of the source's repeated `push (carry % RADIX); carry /= RADIX`
flush loops.  The first argument is fuel, always called with fuel = n, which
is enough since the value shrinks by a factor 10 each step. -/
def decDigitsGo : Nat → Nat → List Nat
  | _, 0 => []
  | 0, _ => []
  | f + 1, n + 1 => ((n + 1) % 10) :: decDigitsGo f ((n + 1) / 10)

/-- Base-10 digits of n, least-significant first; [] for 0. -/
def decDigits (n : Nat) : List Nat := decDigitsGo n n

/-- The digit store (Rust: struct NonSmallInt { digits: Vec<u8> }),
least-significant digit at index 0. -/
structure NonSmallInt where
  digits : List Nat
deriving DecidableEq

/-- Model of str::trim: drop leading and trailing whitespace characters. -/
def trimChars (s : List Char) : List Char :=
  ((s.dropWhile Char.isWhitespace).reverse.dropWhile Char.isWhitespace).reverse

/-- The loop of NonSmallInt::parse: walk the characters, pushing the value of
every decimal digit and clearing the flag on any non-digit character. -/
def parseGo : List Char → List Nat × Bool
  | [] => ([], true)
  | c :: cs =>
    let rest := parseGo cs
    if c.isDigit then ((c.toNat - 48) :: rest.1, rest.2) else (rest.1, false)

/-- NonSmallInt::parse: trim the input, require every remaining character to be
a decimal digit, and store the collected digit values reversed
(least-significant first). -/
def NonSmallInt.parse (n : List Char) : Option NonSmallInt :=
  let p := parseGo (trimChars n)
  if p.2 then some ⟨p.1.reverse⟩ else none

/-- Decimal rendering of a machine integer, most-significant digit first
("0" for zero): the u64 Display formatting used by NonSmallInt::of. -/
def natChars (n : Nat) : List Char :=
  if n = 0 then ['0'] else (decDigits n).reverse.map Nat.digitChar

/-- NonSmallInt::of: format the native integer in decimal and parse it back
(the unwrap cannot fail since the rendering is all digits). -/
def NonSmallInt.of (n : Nat) : NonSmallInt :=
  (NonSmallInt.parse (natChars n)).getD ⟨[]⟩

/-- The MSB-first digit sequence with the run of most-significant zeros
removed: digits.iter().rev().skip_while(zero). -/
def stripMSB (l : List Nat) : List Nat := l.reverse.dropWhile (fun d => d == 0)

/-- NonSmallInt::length at radix 10: the number of significant digits. -/
def NonSmallInt.length (v : NonSmallInt) : Nat := (stripMSB v.digits).length

/-- NonSmallInt::times_radix: prepend n zero digits. -/
def NonSmallInt.times_radix (v : NonSmallInt) (n : Nat) : NonSmallInt :=
  ⟨List.replicate n 0 ++ v.digits⟩

/-- NonSmallInt::is_zero: no digits, or all digits zero. -/
def NonSmallInt.is_zero (v : NonSmallInt) : Bool :=
  v.digits.isEmpty || v.digits.all (fun d => d == 0)

/-- The isize to usize cast (64-bit): two's-complement wrap-around. -/
def usizeCast (i : Int) : Nat := (i % (2 ^ 64 : Int)).toNat

/-- The double-ended zero-padding digit iterator
(struct Digits { nsi, next_ix, next_back_ix, empty }). -/
structure DigitsIter where
  digits : List Nat
  next_ix : Nat
  next_back_ix : Int
  empty : Bool
deriving DecidableEq

/-- NonSmallInt::iter_digits(length). -/
def NonSmallInt.iter_digits (v : NonSmallInt) (length : Nat) : DigitsIter :=
  ⟨v.digits, 0, (length : Int) - 1, length == 0⟩

/-- Iterator::next for Digits.  The source compares next_ix <= next_back_ix
as usize, so a negative next_back_ix wraps to a huge number. -/
def DigitsIter.next (d : DigitsIter) : Option Nat × DigitsIter :=
  if !d.empty && decide (d.next_ix ≤ usizeCast d.next_back_ix) then
    (some (if d.next_ix < d.digits.length then d.digits.getD d.next_ix 0 else 0),
      { d with next_ix := d.next_ix + 1 })
  else (none, d)

/-- DoubleEndedIterator::next_back for Digits. -/
def DigitsIter.next_back (d : DigitsIter) : Option Nat × DigitsIter :=
  if !d.empty && decide ((d.next_ix : Int) ≤ d.next_back_ix) then
    (some (if usizeCast d.next_back_ix < d.digits.length then
        d.digits.getD (usizeCast d.next_back_ix) 0 else 0),
      { d with next_back_ix := d.next_back_ix - 1 })
  else (none, d)

/-- The L digits of v from the least-significant position, synthesizing zero
past the stored range: the stream produced by consuming iter_digits(L) from
the front. -/
def NonSmallInt.window (v : NonSmallInt) (L : Nat) : List Nat :=
  (List.range L).map (fun i => v.digits.getD i 0)

/-- The same digits most-significant first: iter_digits(L).rev(), i.e. the
stream produced by consuming the iterator from the back. -/
def NonSmallInt.windowRev (v : NonSmallInt) (L : Nat) : List Nat :=
  (v.window L).reverse

/-- Digit-wise addition with carry over a zipped pair of digit streams,
returning the emitted digits and the final carry. -/
def addGo : List (Nat × Nat) → Nat → List Nat × Nat
  | [], carry => ([], carry)
  | p :: rest, carry =>
    let temp := p.1 + p.2 + carry
    let r := addGo rest (temp / 10)
    ((temp % 10) :: r.1, r.2)

/-- Add for &NonSmallInt: carry addition over windows of length
max(significant lengths); a leftover carry is pushed as one extra digit. -/
def NonSmallInt.add (a b : NonSmallInt) : NonSmallInt :=
  let L := max a.length b.length
  let r := addGo ((a.window L).zip (b.window L)) 0
  if r.2 = 0 then ⟨r.1⟩ else ⟨r.1 ++ [r.2 % 10]⟩

/-- Digit-wise borrow subtraction over a zipped pair of digit streams:
diff = (10 + l) - (r + borrow), emit diff % 10, next borrow 1 - diff / 10.
The source computes diff with u32 wrapping_sub, which cannot wrap while both
digits are below 10 (the representation invariant), so Nat subtraction is
exact on every reachable state. -/
def sbbGo : List (Nat × Nat) → Nat → List Nat × Nat
  | [], borrow => ([], borrow)
  | p :: rest, borrow =>
    let diff := 10 + p.1 - (p.2 + borrow)
    let r := sbbGo rest (1 - diff / 10)
    ((diff % 10) :: r.1, r.2)

/-- NonSmallInt::safe_sub: borrow subtraction over windows of length
max(stored lengths); None iff a borrow survives the final position. -/
def NonSmallInt.safe_sub (a b : NonSmallInt) : Option NonSmallInt :=
  let L := max a.digits.length b.digits.length
  let r := sbbGo ((a.window L).zip (b.window L)) 0
  if r.2 = 0 then some ⟨r.1⟩ else none

/-- The loop of Mul<u32>: multiply-with-carry over the stored digits, then
flush the remaining carry as base-10 digits. -/
def mulGo (s : Nat) : List Nat → Nat → List Nat
  | [], carry => decDigits carry
  | d :: rest, carry =>
    let temp := s * d + carry
    (temp % 10) :: mulGo s rest (temp / 10)

/-- Mul<u32> for &NonSmallInt. -/
def NonSmallInt.mulU32 (a : NonSmallInt) (s : Nat) : NonSmallInt :=
  ⟨mulGo s a.digits 0⟩

/-- The loop of Mul for &NonSmallInt: accumulate left * digit shifted by the
digit position, over the right operand's stored digits. -/
def mulNsiGo (a : NonSmallInt) : List Nat → Nat → NonSmallInt → NonSmallInt
  | [], _, acc => acc
  | d :: rest, ix, acc => mulNsiGo a rest (ix + 1) (acc.add ((a.mulU32 d).times_radix ix))

/-- Mul for &NonSmallInt: full product via repeated scalar multiplication. -/
def NonSmallInt.mul (a b : NonSmallInt) : NonSmallInt :=
  mulNsiGo a b.digits 0 (NonSmallInt.of 0)

/-- The loop of div_u32 over the digits most-significant first, maintaining
the running remainder as carry and prepending each quotient digit. -/
def divU32Go (rhs : Nat) : List Nat → Nat → List Nat → List Nat × Nat
  | [], carry, q => (q, carry)
  | d :: rest, carry, q =>
    let temp := carry * 10 + d
    divU32Go rhs rest (temp % rhs) ((temp / rhs) :: q)

/-- NonSmallInt::div_u32: (quotient, remainder) by a scalar, None iff the
scalar is 0; the final carry, decomposed into base-10 digits, is the
remainder. -/
def NonSmallInt.div_u32 (a : NonSmallInt) (rhs : Nat) : Option (NonSmallInt × NonSmallInt) :=
  if rhs = 0 then none
  else
    let r := divU32Go rhs a.digits.reverse 0 []
    some (⟨r.1⟩, ⟨decDigits r.2⟩)

/-- NonSmallInt::lt: a shorter significant length is smaller; otherwise the
first differing digit, scanning windows of length max(stored lengths)
most-significant first, decides (false when no digit differs). -/
def NonSmallInt.lt (a b : NonSmallInt) : Bool :=
  if a.length < b.length then true
  else
    let L := max a.digits.length b.digits.length
    match ((a.windowRev L).zip (b.windowRev L)).dropWhile (fun p => p.1 == p.2) with
    | [] => false
    | p :: _ => decide (p.1 < p.2)

/-- PartialEq for NonSmallInt: the MSB-first digit sequences, each with its
run of most-significant zeros skipped, must agree element-wise. -/
def NonSmallInt.eq (a b : NonSmallInt) : Bool :=
  stripMSB a.digits == stripMSB b.digits

/-- Ord for NonSmallInt. -/
def NonSmallInt.cmp (a b : NonSmallInt) : Ordering :=
  if a.lt b then .lt else if a.eq b then .eq else .gt

/-- fmt::Display: the single character "0" for the zero value; otherwise every
stored digit, most-significant first, one character per digit. -/
def NonSmallInt.display (v : NonSmallInt) : List Char :=
  if v.is_zero then ['0'] else v.digits.reverse.map Nat.digitChar

/-- Lookup returning 0 when the index is out of range (the IndexingIsHard
helper and the get(..).unwrap_or(&ZERO) reads of long_division). -/
def lookupD (l : List Nat) (ix : Nat) : Nat := l.getD ix 0

/-- The trial closure of long_division: the top three digits of the remainder
window over the top two divisor digits, capped at RADIX - 1. -/
def trial (r d : List Nat) (k m : Nat) : Nat :=
  let km := k + m
  let r3 := (lookupD r km * 10 + lookupD r (km - 1)) * 10 + lookupD r (km - 2)
  let d2 := lookupD d (m - 1) * 10 + lookupD d (m - 2)
  min (r3 / d2) 9

/-- The smaller closure of long_division: descend from index m to the first
index where the remainder window at offset k and dq differ, and compare the
digits there (false when all m+1 digit pairs agree). -/
def smallerGo (r dq : List Nat) (k : Nat) : Nat → Bool
  | 0 => decide (lookupD r k < lookupD dq 0)
  | i + 1 =>
    if lookupD r (i + 1 + k) == lookupD dq (i + 1) then smallerGo r dq k i
    else decide (lookupD r (i + 1 + k) < lookupD dq (i + 1))

/-- The smaller closure, entered at index m. -/
def smaller (r dq : List Nat) (k m : Nat) : Bool := smallerGo r dq k m

/-- Write v at index ix, appending when ix is the current length (the
element assignment / Vec::insert in the difference closure; the engine only
ever writes at indices at most the current length). -/
def vecPut (l : List Nat) (ix v : Nat) : List Nat :=
  if ix < l.length then l.set ix v else l ++ [v]

/-- The difference closure of long_division: in-place borrow subtraction of dq
from the m+1-digit window of r at offset k; the final borrow is dropped.
The u64 wrapping_sub cannot wrap while all digits are below 10. -/
def diffGo (dq : List Nat) (k : Nat) : Nat → Nat → Nat → List Nat → List Nat
  | 0, _, _, r => r
  | c + 1, i, borrow, r =>
    let diff := 10 + lookupD r (i + k) - (lookupD dq i + borrow)
    diffGo dq k c (i + 1) (1 - diff / 10) (vecPut r (i + k) (diff % 10))

/-- In-place subtraction of the m+1 digits of dq at offset k of r. -/
def difference (r dq : List Nat) (k m : Nat) : List Nat := diffGo dq k (m + 1) 0 0 r

/-- The main loop of long_division: for k from n - m down to 0, compute the
trial digit, correct it down by one when the remainder window is smaller than
the candidate multiple, record it as quotient digit k, and subtract the
candidate from the window.  The fuel argument is k + 1. -/
def ldLoop (d : NonSmallInt) (m : Nat) : Nat → List Nat → List Nat × List Nat
  | 0, r => ([], r)
  | c + 1, r =>
    let k := c
    let qt := trial r d.digits k m
    let dq := d.mulU32 qt
    let qtdq := if smaller r dq.digits k m then (qt - 1, d.mulU32 (qt - 1)) else (qt, dq)
    let rest := ldLoop d m c (difference r qtdq.2.digits k m)
    (rest.1 ++ [qtdq.1], rest.2)

/-- long_division (normalized schoolbook division, Algorithm D); the source
requires 2 <= rhs.length() <= lhs.length().  The final scalar division by the
normalization factor f undoes the scaling of the remainder; its expect cannot
fire since f >= 1. -/
def long_division (lhs rhs : NonSmallInt) : Option (NonSmallInt × NonSmallInt) :=
  if rhs.is_zero then none
  else
    let n := lhs.length
    let m := rhs.length
    let f := 10 / (lookupD rhs.digits (m - 1) + 1)
    let r0 := lhs.mulU32 f
    let d := rhs.mulU32 f
    let qr := ldLoop d m (n - m + 1) r0.digits
    let rfin := ((NonSmallInt.mk qr.2).div_u32 f).getD (⟨[]⟩, ⟨[]⟩)
    some (⟨qr.1⟩, rfin.1)

/-- NonSmallInt::div_nsi: the three-way dispatch — zero divisor, scalar
divisor (significant length 1, dividing by the low digit), dividend shorter
than divisor, and full long division. -/
def NonSmallInt.div_nsi (a b : NonSmallInt) : Option (NonSmallInt × NonSmallInt) :=
  if b.is_zero then none
  else if b.length = 1 then a.div_u32 (lookupD b.digits 0)
  else if a.length < b.length then some (⟨[]⟩, a)
  else long_division a b

/-- The numeric value denoted by a digit store. -/
def NonSmallInt.val (v : NonSmallInt) : Nat := Nat.ofDigits 10 v.digits

/-- The representation invariant: every stored digit lies in [0, 10). -/
def NonSmallInt.Valid (v : NonSmallInt) : Prop := ∀ d ∈ v.digits, d < 10

example : NonSmallInt.of 321 = ⟨[1, 2, 3]⟩ := by decide
example : NonSmallInt.of 0 = ⟨[0]⟩ := by decide
example : (NonSmallInt.of 100).div_nsi (NonSmallInt.of 7) =
    some (⟨[4, 1, 0]⟩, ⟨[2]⟩) := by decide
example : (NonSmallInt.of 10000).div_nsi (NonSmallInt.of 73) =
    some (⟨[6, 3, 1, 0]⟩, ⟨[2, 7, 0, 0, 0, 0]⟩) := by decide
example : (NonSmallInt.of 5).safe_sub (NonSmallInt.of 6) = none := by decide
example : (NonSmallInt.of 15).safe_sub (NonSmallInt.of 6) = some ⟨[9, 0]⟩ := by decide
example : NonSmallInt.parse ['0', '1', '2', '3'] = some ⟨[3, 2, 1, 0]⟩ := by decide
example : (NonSmallInt.mk [3, 2, 1, 0]).display = ['0', '1', '2', '3'] := by decide
example : (NonSmallInt.of 999).mul (NonSmallInt.of 999) = ⟨[1, 0, 0, 8, 9, 9]⟩ := by decide

/-! ## Digit arithmetic toolkit -/

theorem decDigitsGo_eq_digits : ∀ f n, n ≤ f → decDigitsGo f n = Nat.digits 10 n := by
  intro f
  induction f with
  | zero =>
    intro n hn
    interval_cases n
    simp [decDigitsGo]
  | succ f ih =>
    intro n hn
    cases n with
    | zero => simp [decDigitsGo]
    | succ n =>
      rw [decDigitsGo, ih ((n + 1) / 10) (by omega),
        ← Nat.digits_def' (by norm_num : (1:ℕ) < 10) (Nat.succ_pos n)]

theorem decDigits_eq_digits (n : Nat) : decDigits n = Nat.digits 10 n :=
  decDigitsGo_eq_digits n n le_rfl

theorem decDigits_valid (n : Nat) : ∀ d ∈ decDigits n, d < 10 := by
  rw [decDigits_eq_digits]
  intro d hd
  exact Nat.digits_lt_base (by norm_num) hd

theorem ofDigits_decDigits (n : Nat) : Nat.ofDigits 10 (decDigits n) = n := by
  rw [decDigits_eq_digits, Nat.ofDigits_digits]

theorem ofDigits_lt_pow {l : List Nat} (h : ∀ d ∈ l, d < 10) :
    Nat.ofDigits 10 l < 10 ^ l.length :=
  Nat.ofDigits_lt_base_pow_length (by norm_num) h

theorem getD_eq_val_div :
    ∀ (l : List Nat), (∀ d ∈ l, d < 10) → ∀ j, l.getD j 0 = Nat.ofDigits 10 l / 10 ^ j % 10 := by
  intro l
  induction l with
  | nil => simp [Nat.ofDigits_nil]
  | cons d t ih =>
    intro hv j
    have hd : d < 10 := hv d (by simp)
    cases j with
    | zero =>
      have : (d + 10 * Nat.ofDigits 10 t) % 10 = d := by omega
      simpa [Nat.ofDigits_cons] using this.symm
    | succ j =>
      have hstep : (d + 10 * Nat.ofDigits 10 t) / 10 = Nat.ofDigits 10 t := by omega
      have h1 : (d :: t).getD (j + 1) 0 = t.getD j 0 := rfl
      have h2 : (10:ℕ) ^ (j + 1) = 10 * 10 ^ j := by ring
      rw [h1, ih (fun x hx => hv x (by simp [hx])) j, Nat.ofDigits_cons, h2,
        ← Nat.div_div_eq_div_mul, hstep]

theorem getD_mem_or_zero (l : List Nat) (j : Nat) : l.getD j 0 ∈ l ∨ l.getD j 0 = 0 := by
  by_cases h : j < l.length
  · left
    rw [l.getD_eq_getElem 0 h]
    exact l.getElem_mem h
  · right
    rw [List.getD_eq_default]
    omega

theorem getD_lt_ten {l : List Nat} (h : ∀ d ∈ l, d < 10) (j : Nat) : l.getD j 0 < 10 := by
  rcases getD_mem_or_zero l j with hm | hz
  · exact h _ hm
  · omega

theorem ofDigits_replicate_zero (j : Nat) : Nat.ofDigits 10 (List.replicate j 0) = 0 := by
  induction j with
  | zero => rfl
  | succ j ih => simp [List.replicate_succ, Nat.ofDigits_cons, ih]

theorem ofDigits_append_replicate_zero (l : List Nat) (j : Nat) :
    Nat.ofDigits 10 (l ++ List.replicate j 0) = Nat.ofDigits 10 l := by
  rw [Nat.ofDigits_append, ofDigits_replicate_zero]
  simp

theorem strip_decomp (l : List Nat) :
    ∃ j, l = (stripMSB l).reverse ++ List.replicate j 0 := by
  refine ⟨(l.reverse.takeWhile (fun d => d == 0)).length, ?_⟩
  have h1 : l.reverse.takeWhile (fun d => d == 0) =
      List.replicate (l.reverse.takeWhile (fun d => d == 0)).length 0 := by
    apply List.eq_replicate_of_mem
    intro b hb
    simpa using List.mem_takeWhile_imp hb
  calc l = l.reverse.reverse := by simp
    _ = (l.reverse.dropWhile (fun d => d == 0)).reverse ++
        (l.reverse.takeWhile (fun d => d == 0)).reverse := by
        rw [← List.reverse_append, List.takeWhile_append_dropWhile]
    _ = _ := by
        rw [stripMSB]
        congr 1
        rw [h1]
        simp [List.reverse_replicate]

theorem val_eq_val_strip (l : List Nat) :
    Nat.ofDigits 10 l = Nat.ofDigits 10 (stripMSB l).reverse := by
  obtain ⟨j, hj⟩ := strip_decomp l
  conv_lhs => rw [hj]
  rw [ofDigits_append_replicate_zero]

theorem dropWhile_head_false {α : Type} (p : α → Bool) :
    ∀ (l : List α) (a : α) (t : List α), l.dropWhile p = a :: t → p a = false := by
  intro l
  induction l with
  | nil =>
    intro a t h
    simp at h
  | cons x xs ih =>
    intro a t h
    rw [List.dropWhile_cons] at h
    by_cases hp : p x = true
    · rw [if_pos hp] at h
      exact ih a t h
    · rw [if_neg hp] at h
      cases h
      simpa using hp

theorem strip_mem {l : List Nat} {x : Nat} (h : x ∈ stripMSB l) : x ∈ l := by
  have h2 : x ∈ l.reverse := (List.dropWhile_sublist _).subset h
  simpa using h2

theorem strip_reverse_eq_digits {l : List Nat} (h : ∀ d ∈ l, d < 10) :
    (stripMSB l).reverse = Nat.digits 10 (Nat.ofDigits 10 l) := by
  rw [val_eq_val_strip l]
  symm
  apply Nat.digits_ofDigits 10 (by norm_num)
  · intro x hx
    exact h x (strip_mem (by simpa using hx))
  · intro hne
    have hne2 : stripMSB l ≠ [] := by
      intro h0
      rw [h0] at hne
      simp at hne
    obtain ⟨a, t, hs⟩ := List.exists_cons_of_ne_nil hne2
    · have ha : (fun d => d == 0) a = false := dropWhile_head_false _ _ a t hs
      have ha2 : a ≠ 0 := by simpa using ha
      have h3 : (stripMSB l).reverse.getLast? = some a := by
        rw [List.getLast?_reverse, hs]
        rfl
      rw [List.getLast?_eq_getLast _ hne] at h3
      intro h0
      rw [h0] at h3
      exact ha2 (Option.some_injective _ h3).symm

theorem length_eq_digits_len {v : NonSmallInt} (hv : v.Valid) :
    v.length = (Nat.digits 10 v.val).length := by
  rw [NonSmallInt.length, NonSmallInt.val, ← strip_reverse_eq_digits hv]
  simp

theorem val_lt_pow_length {v : NonSmallInt} (hv : v.Valid) : v.val < 10 ^ v.length := by
  rw [NonSmallInt.val, val_eq_val_strip]
  have h : ∀ d ∈ (stripMSB v.digits).reverse, d < 10 := by
    intro d hd
    exact hv d (strip_mem (by simpa using hd))
  have := ofDigits_lt_pow h
  simpa [NonSmallInt.length] using this

theorem pow_length_le_val {v : NonSmallInt} (hv : v.Valid) (h : 1 ≤ v.length) :
    10 ^ (v.length - 1) ≤ v.val := by
  have hlen := length_eq_digits_len hv
  have hne : v.val ≠ 0 := by
    intro h0
    rw [h0] at hlen
    simp [Nat.digits_zero] at hlen
    omega
  have hle := Nat.base_pow_length_digits_le 10 v.val (by norm_num) hne
  rw [← hlen] at hle
  have h2 : (10:ℕ) ^ v.length = 10 * 10 ^ (v.length - 1) := by
    conv_lhs => rw [show v.length = (v.length - 1) + 1 by omega]
    ring
  rw [h2] at hle
  exact Nat.le_of_mul_le_mul_left hle (by norm_num)

theorem eq_iff_val {a b : NonSmallInt} (ha : a.Valid) (hb : b.Valid) :
    a.eq b = true ↔ a.val = b.val := by
  rw [NonSmallInt.eq, beq_iff_eq]
  constructor
  · intro h
    rw [NonSmallInt.val, NonSmallInt.val, val_eq_val_strip a.digits,
      val_eq_val_strip b.digits, h]
  · intro h
    have h1 := strip_reverse_eq_digits ha
    have h2 := strip_reverse_eq_digits hb
    rw [NonSmallInt.val, NonSmallInt.val] at h
    rw [h] at h1
    rw [← h2] at h1
    exact List.reverse_injective h1

theorem is_zero_iff_strip (v : NonSmallInt) : v.is_zero = true ↔ stripMSB v.digits = [] := by
  rw [NonSmallInt.is_zero, stripMSB, List.dropWhile_eq_nil_iff]
  constructor
  · intro h x hx
    have hx2 : x ∈ v.digits := by simpa using hx
    rcases Bool.or_eq_true_iff.mp h with h1 | h1
    · rw [List.isEmpty_iff.mp h1] at hx2
      simp at hx2
    · exact List.all_eq_true.mp h1 x hx2
  · intro h
    apply Bool.or_eq_true_iff.mpr
    right
    exact List.all_eq_true.mpr fun x hx => h x (by simpa using hx)

theorem is_zero_iff_val {v : NonSmallInt} (hv : v.Valid) : v.is_zero = true ↔ v.val = 0 := by
  rw [is_zero_iff_strip]
  constructor
  · intro h
    rw [NonSmallInt.val, val_eq_val_strip, h]
    rfl
  · intro h
    have h1 := strip_reverse_eq_digits hv
    rw [show Nat.ofDigits 10 v.digits = v.val from rfl, h] at h1
    simpa using h1

theorem length_eq_zero_iff (v : NonSmallInt) : v.length = 0 ↔ v.is_zero = true := by
  rw [NonSmallInt.length, is_zero_iff_strip, List.length_eq_zero]

/-! ## Windows -/

theorem window_length (v : NonSmallInt) (L : Nat) : (v.window L).length = L := by
  simp [NonSmallInt.window]

theorem window_valid {v : NonSmallInt} (hv : v.Valid) (L : Nat) :
    ∀ d ∈ v.window L, d < 10 := by
  intro d hd
  rw [NonSmallInt.window] at hd
  obtain ⟨i, _, rfl⟩ := List.mem_map.mp hd
  exact getD_lt_ten hv i

theorem window_succ (v : NonSmallInt) (L : Nat) :
    v.window (L + 1) = v.window L ++ [v.digits.getD L 0] := by
  rw [NonSmallInt.window, NonSmallInt.window, List.range_succ, List.map_append]
  rfl

theorem ofDigits_window {v : NonSmallInt} (hv : v.Valid) (L : Nat) :
    Nat.ofDigits 10 (v.window L) = v.val % 10 ^ L := by
  simp only [NonSmallInt.val]
  induction L with
  | zero => simp [NonSmallInt.window, Nat.mod_one]
  | succ L ih =>
    rw [window_succ, Nat.ofDigits_append, ih, window_length,
      getD_eq_val_div _ hv L, pow_succ]
    have h1 : Nat.ofDigits 10 [Nat.ofDigits 10 v.digits / 10 ^ L % 10] =
        Nat.ofDigits 10 v.digits / 10 ^ L % 10 := by
      simp [Nat.ofDigits_cons, Nat.ofDigits_nil]
    rw [h1, ← Nat.mod_mul]

theorem window_val {v : NonSmallInt} (hv : v.Valid) {L : Nat} (h : v.length ≤ L) :
    Nat.ofDigits 10 (v.window L) = v.val := by
  rw [ofDigits_window hv]
  exact Nat.mod_eq_of_lt (lt_of_lt_of_le (val_lt_pow_length hv)
    (Nat.pow_le_pow_right (by norm_num) h))

theorem length_le_digits_length (v : NonSmallInt) : v.length ≤ v.digits.length := by
  rw [NonSmallInt.length]
  calc (stripMSB v.digits).length ≤ v.digits.reverse.length :=
        (List.dropWhile_sublist _).length_le
    _ = v.digits.length := by simp

/-! ## Addition -/

theorem addGo_spec :
    ∀ (l : List (Nat × Nat)) (c : Nat), (∀ p ∈ l, p.1 < 10 ∧ p.2 < 10) → c ≤ 1 →
      Nat.ofDigits 10 (addGo l c).1 + 10 ^ l.length * (addGo l c).2 =
        Nat.ofDigits 10 (l.map Prod.fst) + Nat.ofDigits 10 (l.map Prod.snd) + c ∧
      (addGo l c).2 ≤ 1 ∧ (∀ d ∈ (addGo l c).1, d < 10) ∧
      (addGo l c).1.length = l.length := by
  intro l
  induction l with
  | nil =>
    intro c _ hc
    refine ⟨by simp [addGo, Nat.ofDigits_nil], hc, by simp [addGo], by simp [addGo]⟩
  | cons p rest ih =>
    intro c hv hc
    have hp := hv p (by simp)
    have hrec := ih ((p.1 + p.2 + c) / 10)
      (fun q hq => hv q (by simp [hq])) (by omega)
    obtain ⟨e1, e2, e3, e4⟩ := hrec
    have hout : addGo (p :: rest) c =
        (((p.1 + p.2 + c) % 10) :: (addGo rest ((p.1 + p.2 + c) / 10)).1,
          (addGo rest ((p.1 + p.2 + c) / 10)).2) := rfl
    rw [hout]
    refine ⟨?_, e2, ?_, by simp [e4]⟩
    · simp only [Nat.ofDigits_cons, List.map_cons, List.length_cons]
      rw [pow_succ]
      have hsplit : p.1 + p.2 + c = (p.1 + p.2 + c) % 10 + 10 * ((p.1 + p.2 + c) / 10) := by
        omega
      calc (p.1 + p.2 + c) % 10 + 10 * Nat.ofDigits 10 (addGo rest ((p.1 + p.2 + c) / 10)).1 +
            10 ^ rest.length * 10 * (addGo rest ((p.1 + p.2 + c) / 10)).2
          = (p.1 + p.2 + c) % 10 +
            10 * (Nat.ofDigits 10 (addGo rest ((p.1 + p.2 + c) / 10)).1 +
              10 ^ rest.length * (addGo rest ((p.1 + p.2 + c) / 10)).2) := by ring
        _ = (p.1 + p.2 + c) % 10 +
            10 * (Nat.ofDigits 10 (rest.map Prod.fst) + Nat.ofDigits 10 (rest.map Prod.snd) +
              (p.1 + p.2 + c) / 10) := by rw [e1]
        _ = p.1 + 10 * Nat.ofDigits 10 (rest.map Prod.fst) +
            (p.2 + 10 * Nat.ofDigits 10 (rest.map Prod.snd)) + c := by omega
    · intro d hd
      rcases List.mem_cons.mp hd with h | h
      · omega
      · exact e3 d h

theorem map_fst_zip_self {α : Type} (la lb : List α) (h : la.length = lb.length) :
    (la.zip lb).map Prod.fst = la :=
  List.map_fst_zip la lb (by omega)

theorem map_snd_zip_self {α : Type} (la lb : List α) (h : la.length = lb.length) :
    (la.zip lb).map Prod.snd = lb :=
  List.map_snd_zip la lb (by omega)

theorem add_val {a b : NonSmallInt} (ha : a.Valid) (hb : b.Valid) :
    (a.add b).val = a.val + b.val ∧ (a.add b).Valid := by
  rw [NonSmallInt.add]
  set L := max a.length b.length with hL
  have hzlen : ((a.window L).zip (b.window L)).length = L := by
    simp [window_length]
  have hzv : ∀ p ∈ (a.window L).zip (b.window L), p.1 < 10 ∧ p.2 < 10 := by
    intro p hp
    exact ⟨window_valid ha L _ (List.of_mem_zip hp).1,
      window_valid hb L _ (List.of_mem_zip hp).2⟩
  obtain ⟨e1, e2, e3, e4⟩ := addGo_spec ((a.window L).zip (b.window L)) 0 hzv (by omega)
  rw [map_fst_zip_self _ _ (by simp [window_length]),
    map_snd_zip_self _ _ (by simp [window_length]),
    window_val ha (le_max_left _ _), window_val hb (le_max_right _ _)] at e1
  rw [hzlen] at e1
  by_cases hc : (addGo ((a.window L).zip (b.window L)) 0).2 = 0
  · rw [if_pos hc]
    rw [hc, Nat.mul_zero] at e1
    constructor
    · show Nat.ofDigits 10 (addGo ((a.window L).zip (b.window L)) 0).1 = a.val + b.val
      omega
    · exact e3
  · rw [if_neg hc]
    have hc1 : (addGo ((a.window L).zip (b.window L)) 0).2 = 1 := by omega
    rw [hc1, Nat.mul_one] at e1
    constructor
    · show Nat.ofDigits 10 ((addGo ((a.window L).zip (b.window L)) 0).1 ++
        [(addGo ((a.window L).zip (b.window L)) 0).2 % 10]) = a.val + b.val
      rw [Nat.ofDigits_append, e4, hzlen, hc1]
      have h1 : Nat.ofDigits 10 [(1:ℕ) % 10] = 1 := by
        simp [Nat.ofDigits_cons, Nat.ofDigits_nil]
      rw [h1, Nat.mul_one]
      omega
    · intro d hd
      rcases List.mem_append.mp hd with h | h
      · exact e3 d h
      · simp at h
        omega

/-! ## Checked subtraction -/

theorem sbbGo_spec :
    ∀ (l : List (Nat × Nat)) (b : Nat), (∀ p ∈ l, p.1 < 10 ∧ p.2 < 10) → b ≤ 1 →
      Nat.ofDigits 10 (sbbGo l b).1 + Nat.ofDigits 10 (l.map Prod.snd) + b =
        Nat.ofDigits 10 (l.map Prod.fst) + 10 ^ l.length * (sbbGo l b).2 ∧
      (sbbGo l b).2 ≤ 1 ∧ (∀ d ∈ (sbbGo l b).1, d < 10) ∧
      (sbbGo l b).1.length = l.length := by
  intro l
  induction l with
  | nil =>
    intro b _ hb
    refine ⟨?_, hb, by simp [sbbGo], by simp [sbbGo]⟩
    simp [sbbGo, Nat.ofDigits_nil]
  | cons p rest ih =>
    intro b hv hb
    have hp := hv p (by simp)
    have hd1 : 10 + p.1 - (p.2 + b) ≤ 19 := by omega
    obtain ⟨e1, e2, e3, e4⟩ := ih (1 - (10 + p.1 - (p.2 + b)) / 10)
      (fun q hq => hv q (by simp [hq])) (by omega)
    have hout : sbbGo (p :: rest) b =
        (((10 + p.1 - (p.2 + b)) % 10) :: (sbbGo rest (1 - (10 + p.1 - (p.2 + b)) / 10)).1,
          (sbbGo rest (1 - (10 + p.1 - (p.2 + b)) / 10)).2) := rfl
    rw [hout]
    refine ⟨?_, e2, ?_, by simp [e4]⟩
    · simp only [Nat.ofDigits_cons, List.map_cons, List.length_cons]
      have hps : (10:ℕ) ^ (rest.length + 1) * (sbbGo rest (1 - (10 + p.1 - (p.2 + b)) / 10)).2 =
          10 * (10 ^ rest.length * (sbbGo rest (1 - (10 + p.1 - (p.2 + b)) / 10)).2) := by
        ring
      rw [hps]
      omega
    · intro d hd
      rcases List.mem_cons.mp hd with h | h
      · omega
      · exact e3 d h

theorem ofDigits_lt_of_len {l : List Nat} (h : ∀ d ∈ l, d < 10) {L : Nat}
    (hL : l.length = L) : Nat.ofDigits 10 l < 10 ^ L := by
  rw [← hL]
  exact ofDigits_lt_pow h

theorem safe_sub_val {a b : NonSmallInt} (ha : a.Valid) (hb : b.Valid) :
    (a.safe_sub b).map NonSmallInt.val =
      (if a.val < b.val then none else some (a.val - b.val)) ∧
    ∀ r, a.safe_sub b = some r → r.Valid := by
  rw [NonSmallInt.safe_sub]
  set L := max a.digits.length b.digits.length with hL
  have hzv : ∀ p ∈ (a.window L).zip (b.window L), p.1 < 10 ∧ p.2 < 10 := by
    intro p hp
    exact ⟨window_valid ha L _ (List.of_mem_zip hp).1,
      window_valid hb L _ (List.of_mem_zip hp).2⟩
  have hzlen : ((a.window L).zip (b.window L)).length = L := by
    simp [window_length]
  obtain ⟨e1, e2, e3, e4⟩ := sbbGo_spec ((a.window L).zip (b.window L)) 0 hzv (by omega)
  rw [map_fst_zip_self _ _ (by simp [window_length]),
    map_snd_zip_self _ _ (by simp [window_length]),
    window_val ha (le_trans (length_le_digits_length a) (le_max_left _ _)),
    window_val hb (le_trans (length_le_digits_length b) (le_max_right _ _)),
    hzlen] at e1
  have hlt : Nat.ofDigits 10 (sbbGo ((a.window L).zip (b.window L)) 0).1 < 10 ^ L :=
    ofDigits_lt_of_len e3 (by rw [e4, hzlen])
  by_cases hc : (sbbGo ((a.window L).zip (b.window L)) 0).2 = 0
  · rw [hc, Nat.mul_zero] at e1
    rw [if_pos hc]
    have hge : ¬ a.val < b.val := by omega
    rw [if_neg hge]
    constructor
    · have hvv : NonSmallInt.val ⟨(sbbGo ((a.window L).zip (b.window L)) 0).1⟩ =
          Nat.ofDigits 10 (sbbGo ((a.window L).zip (b.window L)) 0).1 := rfl
      show some (NonSmallInt.val ⟨(sbbGo ((a.window L).zip (b.window L)) 0).1⟩) =
        some (a.val - b.val)
      rw [hvv]
      congr 1
      omega
    · intro r hr
      cases hr
      exact e3
  · have hc1 : (sbbGo ((a.window L).zip (b.window L)) 0).2 = 1 := by omega
    rw [hc1, Nat.mul_one] at e1
    rw [if_neg hc]
    have hge : a.val < b.val := by omega
    rw [if_pos hge]
    exact ⟨rfl, fun r hr => by cases hr⟩

/-! ## Multiplication -/

theorem mulGo_spec (s : Nat) :
    ∀ (l : List Nat) (c : Nat), (∀ d ∈ l, d < 10) →
      Nat.ofDigits 10 (mulGo s l c) = s * Nat.ofDigits 10 l + c ∧
      (∀ d ∈ mulGo s l c, d < 10) ∧ l.length ≤ (mulGo s l c).length := by
  intro l
  induction l with
  | nil =>
    intro c _
    refine ⟨?_, ?_, by simp⟩
    · rw [show mulGo s [] c = decDigits c from rfl, ofDigits_decDigits]
      simp [Nat.ofDigits_nil]
    · intro d hd
      exact decDigits_valid c d hd
  | cons d rest ih =>
    intro c hv
    obtain ⟨e1, e2, e3⟩ := ih ((s * d + c) / 10) (fun q hq => hv q (by simp [hq]))
    have hout : mulGo s (d :: rest) c =
        ((s * d + c) % 10) :: mulGo s rest ((s * d + c) / 10) := rfl
    rw [hout]
    refine ⟨?_, ?_, by simpa using Nat.succ_le_succ e3⟩
    · rw [Nat.ofDigits_cons, Nat.ofDigits_cons, e1]
      have h1 : (s * d + c) % 10 + 10 * ((s * d + c) / 10) = s * d + c := by omega
      calc (s * d + c) % 10 + 10 * (s * Nat.ofDigits 10 rest + (s * d + c) / 10)
          = ((s * d + c) % 10 + 10 * ((s * d + c) / 10)) + 10 * (s * Nat.ofDigits 10 rest) := by
            ring
        _ = s * d + c + 10 * (s * Nat.ofDigits 10 rest) := by rw [h1]
        _ = s * (d + 10 * Nat.ofDigits 10 rest) + c := by ring
    · intro x hx
      rcases List.mem_cons.mp hx with h | h
      · omega
      · exact e2 x h

theorem mulU32_val {a : NonSmallInt} (ha : a.Valid) (s : Nat) :
    (a.mulU32 s).val = s * a.val ∧ (a.mulU32 s).Valid ∧
    a.digits.length ≤ (a.mulU32 s).digits.length := by
  obtain ⟨e1, e2, e3⟩ := mulGo_spec s a.digits 0 ha
  exact ⟨by rw [NonSmallInt.mulU32, NonSmallInt.val]; simpa using e1, e2, e3⟩

theorem times_radix_val (v : NonSmallInt) (n : Nat) :
    (v.times_radix n).val = 10 ^ n * v.val ∧
    (v.Valid → (v.times_radix n).Valid) := by
  constructor
  · rw [NonSmallInt.times_radix, NonSmallInt.val, NonSmallInt.val, Nat.ofDigits_append,
      ofDigits_replicate_zero]
    simp
  · intro hv d hd
    rcases List.mem_append.mp hd with h | h
    · have := List.eq_of_mem_replicate h
      omega
    · exact hv d h

theorem mulNsiGo_spec (a : NonSmallInt) (ha : a.Valid) :
    ∀ (l : List Nat) (ix : Nat) (acc : NonSmallInt), (∀ d ∈ l, d < 10) → acc.Valid →
      (mulNsiGo a l ix acc).val = acc.val + a.val * Nat.ofDigits 10 l * 10 ^ ix ∧
      (mulNsiGo a l ix acc).Valid := by
  intro l
  induction l with
  | nil =>
    intro ix acc _ hacc
    refine ⟨?_, hacc⟩
    simp [mulNsiGo, Nat.ofDigits_nil]
  | cons d rest ih =>
    intro ix acc hv hacc
    have hstepv : ((a.mulU32 d).times_radix ix).Valid :=
      (times_radix_val (a.mulU32 d) ix).2 (mulU32_val ha d).2.1
    have haddv := add_val hacc hstepv
    have hrec := ih (ix + 1) (acc.add ((a.mulU32 d).times_radix ix))
      (fun q hq => hv q (by simp [hq])) haddv.2
    have hout : mulNsiGo a (d :: rest) ix acc =
        mulNsiGo a rest (ix + 1) (acc.add ((a.mulU32 d).times_radix ix)) := rfl
    rw [hout]
    refine ⟨?_, hrec.2⟩
    rw [hrec.1, haddv.1, (times_radix_val (a.mulU32 d) ix).1, (mulU32_val ha d).1,
      Nat.ofDigits_cons]
    ring

theorem of_zero_eq : NonSmallInt.of 0 = ⟨[0]⟩ := by decide

theorem mul_val {a b : NonSmallInt} (ha : a.Valid) (hb : b.Valid) :
    (a.mul b).val = a.val * b.val ∧ (a.mul b).Valid := by
  have h0v : (NonSmallInt.of 0).Valid := by
    rw [of_zero_eq]
    intro d hd
    simp at hd
    omega
  obtain ⟨e1, e2⟩ := mulNsiGo_spec a ha b.digits 0 (NonSmallInt.of 0) hb h0v
  rw [NonSmallInt.mul]
  refine ⟨?_, e2⟩
  rw [e1, of_zero_eq]
  show Nat.ofDigits 10 [0] + a.val * Nat.ofDigits 10 b.digits * 10 ^ 0 = a.val * b.val
  simp [Nat.ofDigits_cons, Nat.ofDigits_nil, NonSmallInt.val]

/-! ## Scalar division -/

theorem divU32Go_spec {rhs : Nat} (hrhs : 0 < rhs) :
    ∀ (ds : List Nat) (c : Nat) (q0 : List Nat), (∀ d ∈ ds, d < 10) → c < rhs →
      ∃ outs, divU32Go rhs ds c q0 =
          (outs ++ q0, (c * 10 ^ ds.length + Nat.ofDigits 10 ds.reverse) % rhs) ∧
        Nat.ofDigits 10 outs = (c * 10 ^ ds.length + Nat.ofDigits 10 ds.reverse) / rhs ∧
        outs.length = ds.length ∧ (∀ d ∈ outs, d < 10) := by
  intro ds
  induction ds with
  | nil =>
    intro c q0 _ hc
    refine ⟨[], ?_, ?_, rfl, by simp⟩
    · simp [divU32Go, Nat.ofDigits_nil, Nat.mod_eq_of_lt hc]
    · simp [Nat.ofDigits_nil, Nat.div_eq_of_lt hc]
  | cons d rest ih =>
    intro c q0 hv hc
    have hd : d < 10 := hv d (by simp)
    have hc1 : (c * 10 + d) % rhs < rhs := Nat.mod_lt _ hrhs
    obtain ⟨outs, e1, e2, e3, e4⟩ := ih ((c * 10 + d) % rhs) (((c * 10 + d) / rhs) :: q0)
      (fun q hq => hv q (by simp [hq])) hc1
    have hout : divU32Go rhs (d :: rest) c q0 =
        divU32Go rhs rest ((c * 10 + d) % rhs) (((c * 10 + d) / rhs) :: q0) := rfl
    have hval : c * 10 ^ (d :: rest).length + Nat.ofDigits 10 (d :: rest).reverse =
        (c * 10 + d) % rhs * 10 ^ rest.length + Nat.ofDigits 10 rest.reverse +
          ((c * 10 + d) / rhs) * 10 ^ rest.length * rhs := by
      have hsplit : (c * 10 + d) % rhs + ((c * 10 + d) / rhs) * rhs = c * 10 + d := by
        rw [Nat.mod_add_div']
      calc c * 10 ^ (d :: rest).length + Nat.ofDigits 10 (d :: rest).reverse
          = c * (10 * 10 ^ rest.length) +
            (Nat.ofDigits 10 rest.reverse + d * 10 ^ rest.length) := by
            rw [List.length_cons, pow_succ, List.reverse_cons, Nat.ofDigits_append]
            simp [Nat.ofDigits_cons, Nat.ofDigits_nil]
            ring
        _ = (c * 10 + d) * 10 ^ rest.length + Nat.ofDigits 10 rest.reverse := by ring
        _ = ((c * 10 + d) % rhs + ((c * 10 + d) / rhs) * rhs) * 10 ^ rest.length +
            Nat.ofDigits 10 rest.reverse := by rw [hsplit]
        _ = _ := by ring
    refine ⟨outs ++ [(c * 10 + d) / rhs], ?_, ?_, by simp [e3], ?_⟩
    · rw [hout, e1]
      have hq : outs ++ (c * 10 + d) / rhs :: q0 = outs ++ [(c * 10 + d) / rhs] ++ q0 := by
        simp
      have hr : ((c * 10 + d) % rhs * 10 ^ rest.length + Nat.ofDigits 10 rest.reverse) % rhs =
          (c * 10 ^ (d :: rest).length + Nat.ofDigits 10 (d :: rest).reverse) % rhs := by
        rw [hval, Nat.add_mul_mod_self_right]
      rw [hq, hr]
    · rw [Nat.ofDigits_append, e2, e3, hval, Nat.add_mul_div_right _ _ hrhs]
      have hdig : Nat.ofDigits 10 [(c * 10 + d) / rhs] = (c * 10 + d) / rhs := by
        simp [Nat.ofDigits_cons, Nat.ofDigits_nil]
      rw [hdig]
      ring
    · intro x hx
      rcases List.mem_append.mp hx with h | h
      · exact e4 x h
      · have hx2 : x = (c * 10 + d) / rhs := by simpa using h
        have hlt : c * 10 + d < 10 * rhs := by omega
        have := (Nat.div_lt_iff_lt_mul hrhs).mpr (by omega : c * 10 + d < 10 * rhs)
        omega

theorem div_u32_eq_none_iff (a : NonSmallInt) (rhs : Nat) :
    a.div_u32 rhs = none ↔ rhs = 0 := by
  rw [NonSmallInt.div_u32]
  by_cases h : rhs = 0
  · simp [h]
  · simp [h]

theorem div_u32_spec {a : NonSmallInt} (ha : a.Valid) {rhs : Nat} (hrhs : 0 < rhs) :
    ∃ q r, a.div_u32 rhs = some (q, r) ∧ q.val = a.val / rhs ∧ r.val = a.val % rhs ∧
      q.Valid ∧ r.Valid ∧ a.digits.length = q.digits.length := by
  have hv2 : ∀ d ∈ a.digits.reverse, d < 10 := by
    intro d hd
    exact ha d (by simpa using hd)
  obtain ⟨outs, e1, e2, e3, e4⟩ := divU32Go_spec hrhs a.digits.reverse 0 [] hv2 hrhs
  rw [NonSmallInt.div_u32, if_neg (by omega)]
  refine ⟨⟨outs ++ []⟩, ⟨decDigits ((0 * 10 ^ a.digits.reverse.length +
    Nat.ofDigits 10 a.digits.reverse.reverse) % rhs)⟩, ?_, ?_, ?_, ?_, ?_, ?_⟩
  · rw [e1]
  · show Nat.ofDigits 10 (outs ++ []) = a.val / rhs
    rw [List.append_nil, e2]
    simp [NonSmallInt.val]
  · show Nat.ofDigits 10 (decDigits _) = a.val % rhs
    rw [ofDigits_decDigits]
    simp [NonSmallInt.val]
  · intro d hd
    rw [List.append_nil] at hd
    exact e4 d hd
  · intro d hd
    exact decDigits_valid _ d hd
  · rw [List.append_nil]
    rw [e3]
    simp

/-! ## Ordering -/

theorem digit_dominance {x y A B P : Nat} (hA : A < P) (hxy : x < y) :
    A + x * P < B + y * P := by
  have h1 : (x + 1) * P ≤ y * P := Nat.mul_le_mul_right P (by omega)
  have h2 : (x + 1) * P = x * P + P := by ring
  omega

theorem msb_first_lt_iff {x y A B P : Nat} (hA : A < P) (hB : B < P) :
    A + x * P < B + y * P ↔ (x < y ∨ (x = y ∧ A < B)) := by
  constructor
  · intro h
    rcases Nat.lt_trichotomy x y with hxy | hxy | hxy
    · exact Or.inl hxy
    · subst hxy
      exact Or.inr ⟨rfl, by omega⟩
    · have hcontra : B + y * P < A + x * P := digit_dominance (B := A) hB hxy
      omega
  · rintro (hxy | ⟨rfl, hab⟩)
    · exact digit_dominance hA hxy
    · omega

theorem lex_dropWhile_spec :
    ∀ (la lb : List Nat), la.length = lb.length →
      (∀ d ∈ la, d < 10) → (∀ d ∈ lb, d < 10) →
      (match (la.zip lb).dropWhile (fun p => p.1 == p.2) with
        | [] => false
        | p :: _ => decide (p.1 < p.2)) =
      decide (Nat.ofDigits 10 la.reverse < Nat.ofDigits 10 lb.reverse) := by
  intro la
  induction la with
  | nil =>
    intro lb hlen _ _
    have : lb = [] := by simpa using hlen.symm
    subst this
    simp
  | cons x ta ih =>
    intro lb hlen hva hvb
    match lb, hlen with
    | y :: tb, hlen =>
      have hlen2 : ta.length = tb.length := by simpa using hlen
      have hA : Nat.ofDigits 10 ta.reverse < 10 ^ ta.length :=
        ofDigits_lt_of_len (fun d hd => hva d (by simp [List.mem_reverse.mp hd])) (by simp)
      have hB : Nat.ofDigits 10 tb.reverse < 10 ^ tb.length :=
        ofDigits_lt_of_len (fun d hd => hvb d (by simp [List.mem_reverse.mp hd])) (by simp)
      have hvalA : Nat.ofDigits 10 (x :: ta).reverse =
          Nat.ofDigits 10 ta.reverse + x * 10 ^ ta.length := by
        rw [List.reverse_cons, Nat.ofDigits_append]
        simp [Nat.ofDigits_cons, Nat.ofDigits_nil]
        ring
      have hvalB : Nat.ofDigits 10 (y :: tb).reverse =
          Nat.ofDigits 10 tb.reverse + y * 10 ^ tb.length := by
        rw [List.reverse_cons, Nat.ofDigits_append]
        simp [Nat.ofDigits_cons, Nat.ofDigits_nil]
        ring
      have hzip : ((x :: ta).zip (y :: tb)) = (x, y) :: ta.zip tb := rfl
      rw [hzip, hvalA, hvalB]
      by_cases hxy : x = y
      · subst hxy
        rw [List.dropWhile_cons_of_pos (by simp)]
        rw [ih tb hlen2 (fun d hd => hva d (by simp [hd])) (fun d hd => hvb d (by simp [hd]))]
        rw [decide_eq_decide, hlen2]
        constructor
        · intro h
          omega
        · intro h
          omega
      · rw [List.dropWhile_cons_of_neg (by simpa using hxy)]
        show decide (x < y) = _
        rw [hlen2] at hA
        rw [decide_eq_decide, hlen2, msb_first_lt_iff hA hB]
        constructor
        · intro h
          exact Or.inl h
        · rintro (h | ⟨h, _⟩)
          · exact h
          · exact absurd h hxy

theorem windowRev_reverse (v : NonSmallInt) (L : Nat) :
    (v.windowRev L).reverse = v.window L := by
  rw [NonSmallInt.windowRev, List.reverse_reverse]

theorem lt_iff_val {a b : NonSmallInt} (ha : a.Valid) (hb : b.Valid) :
    a.lt b = decide (a.val < b.val) := by
  rw [NonSmallInt.lt]
  by_cases h : a.length < b.length
  · rw [if_pos h]
    have h1 : 1 ≤ b.length := by omega
    have h2 : a.val < b.val := by
      calc a.val < 10 ^ a.length := val_lt_pow_length ha
        _ ≤ 10 ^ (b.length - 1) := Nat.pow_le_pow_right (by norm_num) (by omega)
        _ ≤ b.val := pow_length_le_val hb h1
    simp [h2]
  · rw [if_neg h]
    have hlex := lex_dropWhile_spec (a.windowRev (max a.digits.length b.digits.length))
      (b.windowRev (max a.digits.length b.digits.length))
      (by simp [NonSmallInt.windowRev, window_length])
      (fun d hd => window_valid ha _ d (by
        rw [NonSmallInt.windowRev] at hd
        exact List.mem_reverse.mp hd))
      (fun d hd => window_valid hb _ d (by
        rw [NonSmallInt.windowRev] at hd
        exact List.mem_reverse.mp hd))
    rw [hlex, windowRev_reverse, windowRev_reverse,
      window_val ha (le_trans (length_le_digits_length a) (le_max_left _ _)),
      window_val hb (le_trans (length_le_digits_length b) (le_max_right _ _))]

theorem cmp_compare {a b : NonSmallInt} (ha : a.Valid) (hb : b.Valid) :
    a.cmp b = compare a.val b.val := by
  rw [NonSmallInt.cmp, lt_iff_val ha hb]
  rcases Nat.lt_trichotomy a.val b.val with h | h | h
  · rw [if_pos (by simpa using h), (Nat.compare_eq_lt).mpr h]
  · rw [if_neg (by simp [h]), if_pos ((eq_iff_val ha hb).mpr h), (Nat.compare_eq_eq).mpr h]
  · rw [if_neg (by simp; omega), if_neg (by
      intro hc
      have := (eq_iff_val ha hb).mp hc
      omega), (Nat.compare_eq_gt).mpr h]

/-! ## Parse, construction, display -/

theorem parseGo_snd (cs : List Char) : (parseGo cs).2 = cs.all Char.isDigit := by
  induction cs with
  | nil => rfl
  | cons c rest ih =>
    rw [List.all_cons, ← ih]
    by_cases h : c.isDigit
    · simp [parseGo, h]
    · simp [parseGo, h]

theorem parseGo_fst_of_all :
    ∀ (cs : List Char), cs.all Char.isDigit = true →
      (parseGo cs).1 = cs.map (fun c => c.toNat - 48) := by
  intro cs
  induction cs with
  | nil => intro _; rfl
  | cons c rest ih =>
    intro h
    rw [List.all_cons] at h
    have hc : c.isDigit = true := by
      cases hd : c.isDigit
      · rw [hd] at h
        simp at h
      · rfl
    have hrest : rest.all Char.isDigit = true := by
      rw [hc] at h
      simpa using h
    simp [parseGo, hc, ih hrest]

theorem parse_eq (s : List Char) :
    NonSmallInt.parse s =
      if (trimChars s).all Char.isDigit then
        some ⟨((trimChars s).map (fun c => c.toNat - 48)).reverse⟩
      else none := by
  rw [NonSmallInt.parse]
  by_cases h : (trimChars s).all Char.isDigit
  · rw [if_pos h]
    have h2 := parseGo_snd (trimChars s)
    rw [h] at h2
    simp only [h2, if_pos]
    rw [parseGo_fst_of_all _ h]
  · rw [if_neg h]
    have h2 := parseGo_snd (trimChars s)
    have h3 : (trimChars s).all Char.isDigit = false := by
      cases hd : (trimChars s).all Char.isDigit
      · rfl
      · exact absurd hd h
    rw [h3] at h2
    simp [h2]

theorem dropWhile_eq_self_of_false {α : Type} (p : α → Bool) :
    ∀ (l : List α), (∀ c ∈ l, p c = false) → l.dropWhile p = l := by
  intro l
  induction l with
  | nil => intro _; rfl
  | cons c rest _ =>
    intro h
    rw [List.dropWhile_cons, h c (by simp)]
    simp

theorem trimChars_eq_self {l : List Char} (h : ∀ c ∈ l, c.isWhitespace = false) :
    trimChars l = l := by
  rw [trimChars, dropWhile_eq_self_of_false _ l h,
    dropWhile_eq_self_of_false _ l.reverse (fun c hc => h c (by simpa using hc))]
  simp

theorem digitChar_isDigit {d : Nat} (h : d < 10) : (Nat.digitChar d).isDigit = true := by
  interval_cases d <;> decide

theorem digitChar_toNat {d : Nat} (h : d < 10) : (Nat.digitChar d).toNat - 48 = d := by
  interval_cases d <;> decide

theorem digitChar_not_ws {d : Nat} (h : d < 10) : (Nat.digitChar d).isWhitespace = false := by
  interval_cases d <;> decide

theorem natChars_all_digits (n : Nat) : (natChars n).all Char.isDigit = true := by
  rw [natChars]
  by_cases h : n = 0
  · rw [if_pos h]
    decide
  · rw [if_neg h]
    apply List.all_eq_true.mpr
    intro c hc
    obtain ⟨d, hd, rfl⟩ := List.mem_map.mp hc
    exact digitChar_isDigit (decDigits_valid n d (by simpa using hd))

theorem natChars_no_ws (n : Nat) : ∀ c ∈ natChars n, c.isWhitespace = false := by
  rw [natChars]
  by_cases h : n = 0
  · rw [if_pos h]
    intro c hc
    simp at hc
    subst hc
    decide
  · rw [if_neg h]
    intro c hc
    obtain ⟨d, hd, rfl⟩ := List.mem_map.mp hc
    exact digitChar_not_ws (decDigits_valid n d (by simpa using hd))

theorem map_toNat_map_digitChar {l : List Nat} (h : ∀ d ∈ l, d < 10) :
    (l.map Nat.digitChar).map (fun c => c.toNat - 48) = l := by
  rw [List.map_map]
  have : ∀ d ∈ l, (fun c => Char.toNat c - 48) (Nat.digitChar d) = d := by
    intro d hd
    exact digitChar_toNat (h d hd)
  calc l.map ((fun c => Char.toNat c - 48) ∘ Nat.digitChar) = l.map id :=
        List.map_congr_left this
    _ = l := List.map_id l

theorem of_spec (n : Nat) :
    (NonSmallInt.of n).digits = (if n = 0 then [0] else Nat.digits 10 n) ∧
    (NonSmallInt.of n).Valid ∧ (NonSmallInt.of n).val = n := by
  have hdig : (NonSmallInt.of n).digits = (if n = 0 then [0] else Nat.digits 10 n) := by
    rw [NonSmallInt.of, parse_eq, trimChars_eq_self (natChars_no_ws n),
      if_pos (natChars_all_digits n)]
    by_cases h : n = 0
    · subst h
      decide
    · rw [if_neg h]
      show ((natChars n).map (fun c => c.toNat - 48)).reverse = Nat.digits 10 n
      rw [natChars, if_neg h, map_toNat_map_digitChar
        (fun d hd => decDigits_valid n d (by simpa using hd)),
        List.reverse_reverse, decDigits_eq_digits]
  refine ⟨hdig, ?_, ?_⟩
  · intro d hd
    rw [hdig] at hd
    by_cases h : n = 0
    · rw [if_pos h] at hd
      simp at hd
      omega
    · rw [if_neg h] at hd
      exact Nat.digits_lt_base (by norm_num) hd
  · rw [NonSmallInt.val, hdig]
    by_cases h : n = 0
    · rw [if_pos h, h]
      simp [Nat.ofDigits_cons, Nat.ofDigits_nil]
    · rw [if_neg h, Nat.ofDigits_digits]

theorem of_valid (n : Nat) : (NonSmallInt.of n).Valid := (of_spec n).2.1

theorem of_val (n : Nat) : (NonSmallInt.of n).val = n := (of_spec n).2.2

theorem of_length (n : Nat) : (NonSmallInt.of n).length = (Nat.digits 10 n).length := by
  rw [length_eq_digits_len (of_valid n), of_val]

theorem display_of (n : Nat) : (NonSmallInt.of n).display = natChars n := by
  rw [NonSmallInt.display]
  by_cases h : n = 0
  · subst h
    decide
  · have hnz : (NonSmallInt.of n).is_zero = false := by
      cases hz : (NonSmallInt.of n).is_zero
      · rfl
      · have := (is_zero_iff_val (of_valid n)).mp hz
        rw [of_val] at this
        exact absurd this h
    rw [hnz]
    show ((NonSmallInt.of n).digits.reverse.map Nat.digitChar) = natChars n
    rw [(of_spec n).1, if_neg h, natChars, if_neg h, decDigits_eq_digits]

/-! ## Long division: the in-place window subtraction -/

theorem ofDigits_set :
    ∀ (l : List Nat) (j v : Nat), j < l.length →
      Nat.ofDigits 10 (l.set j v) + l.getD j 0 * 10 ^ j =
        Nat.ofDigits 10 l + v * 10 ^ j := by
  intro l
  induction l with
  | nil =>
    intro j v h
    simp at h
  | cons x t ih =>
    intro j v h
    cases j with
    | zero =>
      simp only [List.set, Nat.ofDigits_cons, List.getD_cons_zero, pow_zero]
      ring_nf
    | succ j =>
      have hj : j < t.length := by simpa using h
      have hstep := ih j v hj
      have hset : (x :: t).set (j + 1) v = x :: t.set j v := rfl
      have hgd : (x :: t).getD (j + 1) 0 = t.getD j 0 := rfl
      rw [hset, hgd]
      calc Nat.ofDigits 10 (x :: t.set j v) + t.getD j 0 * 10 ^ (j + 1)
          = x + 10 * (Nat.ofDigits 10 (t.set j v) + t.getD j 0 * 10 ^ j) := by
            rw [Nat.ofDigits_cons, pow_succ]
            ring
        _ = x + 10 * (Nat.ofDigits 10 t + v * 10 ^ j) := by rw [hstep]
        _ = Nat.ofDigits 10 (x :: t) + v * 10 ^ (j + 1) := by
            rw [Nat.ofDigits_cons, pow_succ]
            ring

theorem vecPut_val {l : List Nat} {j v : Nat} (h : j ≤ l.length) :
    Nat.ofDigits 10 (vecPut l j v) + l.getD j 0 * 10 ^ j =
      Nat.ofDigits 10 l + v * 10 ^ j ∧
    (vecPut l j v).length = max l.length (j + 1) ∧
    ((∀ x ∈ l, x < 10) → v < 10 → ∀ x ∈ vecPut l j v, x < 10) := by
  rw [vecPut]
  by_cases hlt : j < l.length
  · rw [if_pos hlt]
    refine ⟨ofDigits_set l j v hlt, by simp [List.length_set]; omega, ?_⟩
    intro hl hv x hx
    rcases List.mem_or_eq_of_mem_set hx with h2 | h2
    · exact hl x h2
    · omega
  · rw [if_neg hlt]
    have hj : j = l.length := by omega
    subst hj
    refine ⟨?_, by simp, ?_⟩
    · rw [Nat.ofDigits_append, List.getD_eq_default _ _ (by omega)]
      simp [Nat.ofDigits_cons, Nat.ofDigits_nil, Nat.mul_comm]
    · intro hl hv x hx
      rcases List.mem_append.mp hx with h2 | h2
      · exact hl x h2
      · simp at h2
        omega

theorem high_digits_unchanged {A A2 d out j : Nat} (hd : d = A / 10 ^ j % 10)
    (hout : out < 10) (heq : A2 + d * 10 ^ j = A + out * 10 ^ j) :
    A2 / 10 ^ (j + 1) = A / 10 ^ (j + 1) ∧ A2 % 10 ^ j = A % 10 ^ j := by
  have hP : (0:ℕ) < 10 ^ j := Nat.pos_pow_of_pos j (by norm_num)
  have hdecomp : A = A / 10 ^ (j + 1) * 10 ^ (j + 1) + d * 10 ^ j + A % 10 ^ j := by
    have h1 : A % 10 ^ (j + 1) = A % 10 ^ j + 10 ^ j * (A / 10 ^ j % 10) := by
      rw [← Nat.mod_mul, ← pow_succ]
    have h1b : A % 10 ^ (j + 1) = A % 10 ^ j + A / 10 ^ j % 10 * 10 ^ j := by
      rw [h1]
      ring
    have h2 : A / 10 ^ (j + 1) * 10 ^ (j + 1) + A % 10 ^ (j + 1) = A := Nat.div_add_mod' _ _
    rw [hd]
    omega
  have hA2 : A2 = A / 10 ^ (j + 1) * 10 ^ (j + 1) + out * 10 ^ j + A % 10 ^ j := by
    omega
  have hmod : A % 10 ^ j < 10 ^ j := Nat.mod_lt _ hP
  have hsmall : out * 10 ^ j + A % 10 ^ j < 10 ^ (j + 1) := by
    have : out * 10 ^ j + A % 10 ^ j < (out + 1) * 10 ^ j := by
      have hexp : (out + 1) * 10 ^ j = out * 10 ^ j + 10 ^ j := by ring
      omega
    have h2 : (out + 1) * 10 ^ j ≤ 10 * 10 ^ j := Nat.mul_le_mul_right _ (by omega)
    have h3 : (10:ℕ) * 10 ^ j = 10 ^ (j + 1) := by ring
    omega
  constructor
  · rw [hA2]
    rw [Nat.mul_comm (A / 10 ^ (j + 1)) (10 ^ (j + 1)), Nat.add_assoc,
      Nat.mul_add_div (Nat.pos_pow_of_pos _ (by norm_num)),
      Nat.div_eq_of_lt hsmall]
    omega
  · have hA2b : A2 = A % 10 ^ j + (A / 10 ^ (j + 1) * 10 + out) * 10 ^ j := by
      have hexp : (A / 10 ^ (j + 1) * 10 + out) * 10 ^ j =
          A / 10 ^ (j + 1) * 10 ^ (j + 1) + out * 10 ^ j := by ring
      omega
    rw [hA2b, Nat.add_mul_mod_self_right, Nat.mod_eq_of_lt hmod]

theorem lookupD_eq (l : List Nat) (ix : Nat) : lookupD l ix = l.getD ix 0 := rfl

theorem diffGo_spec {dq : List Nat} (hdq : ∀ x ∈ dq, x < 10) (k : Nat) :
    ∀ (c i b : Nat) (r : List Nat), (∀ x ∈ r, x < 10) → b ≤ 1 → i + k ≤ r.length →
      (∀ x ∈ diffGo dq k c i b r, x < 10) ∧
      r.length ≤ (diffGo dq k c i b r).length ∧
      Nat.ofDigits 10 (diffGo dq k c i b r) +
        (Nat.ofDigits 10 dq / 10 ^ i % 10 ^ c + b) * 10 ^ (i + k) =
      Nat.ofDigits 10 r +
        (if Nat.ofDigits 10 r / 10 ^ (i + k) % 10 ^ c <
            Nat.ofDigits 10 dq / 10 ^ i % 10 ^ c + b then 1 else 0) *
          10 ^ (i + k + c) := by
  intro c
  induction c with
  | zero =>
    intro i b r hr hb hik
    refine ⟨hr, le_rfl, ?_⟩
    show Nat.ofDigits 10 r + (Nat.ofDigits 10 dq / 10 ^ i % 10 ^ 0 + b) * 10 ^ (i + k) = _
    rcases Nat.le_one_iff_eq_zero_or_eq_one.mp hb with rfl | rfl
    · simp [Nat.mod_one]
    · simp [Nat.mod_one]
  | succ c ih =>
    intro i b r hr hb hik
    have hout : diffGo dq k (c + 1) i b r =
        diffGo dq k c (i + 1) (1 - (10 + lookupD r (i + k) - (lookupD dq i + b)) / 10)
          (vecPut r (i + k) ((10 + lookupD r (i + k) - (lookupD dq i + b)) % 10)) := rfl
    simp only [lookupD_eq] at hout
    set d := r.getD (i + k) 0 with hd_def
    set s := dq.getD i 0 with hs_def
    have hd10 : d < 10 := getD_lt_ten hr (i + k)
    have hs10 : s < 10 := getD_lt_ten hdq i
    set out := (10 + d - (s + b)) % 10 with hout_def
    set b1 := 1 - (10 + d - (s + b)) / 10 with hb1_def
    have hout10 : out < 10 := by omega
    have hb1le : b1 ≤ 1 := by omega
    have hident : out + s + b = d + 10 * b1 := by omega
    obtain ⟨hvpe, hvplen, hvpval⟩ := vecPut_val (l := r) (j := i + k) (v := out) hik
    have hr2v : ∀ x ∈ vecPut r (i + k) out, x < 10 := hvpval hr hout10
    have hr2len : r.length ≤ (vecPut r (i + k) out).length := by
      rw [hvplen]
      exact le_max_left _ _
    have hik2 : i + 1 + k ≤ (vecPut r (i + k) out).length := by
      rw [hvplen]
      have := le_max_right r.length (i + k + 1)
      omega
    obtain ⟨ih1, ih2, ih3⟩ := ih (i + 1) b1 (vecPut r (i + k) out) hr2v hb1le hik2
    have hd_eq : d = Nat.ofDigits 10 r / 10 ^ (i + k) % 10 := getD_eq_val_div r hr (i + k)
    have high := high_digits_unchanged (j := i + k) hd_eq hout10 hvpe
    refine ⟨by rw [hout]; exact ih1, by rw [hout]; omega, ?_⟩
    rw [hout]
    -- normalize the exponents appearing in the inductive hypothesis
    rw [show i + 1 + k = i + k + 1 by omega] at ih3
    rw [show i + k + 1 + c = i + k + c + 1 by omega] at ih3
    rw [high.1] at ih3
    -- normalize the exponent in the goal
    rw [show i + k + (c + 1) = i + k + c + 1 by omega]
    set Q : Nat := 10 ^ (i + k) with hQ_def
    set T : Nat := 10 ^ (i + k + c + 1) with hT_def
    set S2 : Nat := Nat.ofDigits 10 dq / 10 ^ (i + 1) % 10 ^ c with hS2_def
    set W2 : Nat := Nat.ofDigits 10 r / 10 ^ (i + k + 1) % 10 ^ c with hW2_def
    have hP1 : (10:ℕ) ^ (i + k + 1) = 10 * Q := by
      rw [hQ_def]
      ring
    -- decompose the dq slice and the window slice one digit at a time
    have hSdec : Nat.ofDigits 10 dq / 10 ^ i % 10 ^ (c + 1) = s + 10 * S2 := by
      have h1 : Nat.ofDigits 10 dq / 10 ^ i % (10 * 10 ^ c) =
          Nat.ofDigits 10 dq / 10 ^ i % 10 +
            10 * (Nat.ofDigits 10 dq / 10 ^ i / 10 % 10 ^ c) := Nat.mod_mul
      have h2 : Nat.ofDigits 10 dq / 10 ^ i / 10 = Nat.ofDigits 10 dq / 10 ^ (i + 1) := by
        rw [Nat.div_div_eq_div_mul, ← pow_succ]
      have h3 : (10:ℕ) ^ (c + 1) = 10 * 10 ^ c := by ring
      rw [h3, h1, h2, ← hS2_def, hs_def, getD_eq_val_div dq hdq i]
    have hWdec : Nat.ofDigits 10 r / 10 ^ (i + k) % 10 ^ (c + 1) = d + 10 * W2 := by
      have h1 : Nat.ofDigits 10 r / 10 ^ (i + k) % (10 * 10 ^ c) =
          Nat.ofDigits 10 r / 10 ^ (i + k) % 10 +
            10 * (Nat.ofDigits 10 r / 10 ^ (i + k) / 10 % 10 ^ c) := Nat.mod_mul
      have h2 : Nat.ofDigits 10 r / 10 ^ (i + k) / 10 =
          Nat.ofDigits 10 r / 10 ^ (i + k + 1) := by
        rw [Nat.div_div_eq_div_mul, ← pow_succ]
      have h3 : (10:ℕ) ^ (c + 1) = 10 * 10 ^ c := by ring
      rw [h3, h1, h2, ← hW2_def, ← hd_eq]
    have hb1char : b1 = if d < s + b then 1 else 0 := by
      by_cases hdc : d < s + b
      · rw [if_pos hdc]
        omega
      · rw [if_neg hdc]
        omega
    -- the outgoing borrow of the combined window equals the nested one
    have hbo : (if Nat.ofDigits 10 r / 10 ^ (i + k) % 10 ^ (c + 1) <
          Nat.ofDigits 10 dq / 10 ^ i % 10 ^ (c + 1) + b then (1:ℕ) else 0) =
        (if W2 < S2 + b1 then (1:ℕ) else 0) := by
      rw [hWdec, hSdec, hb1char]
      by_cases h1 : d < s + b
      · rw [if_pos h1] at *
        by_cases h2 : W2 < S2 + 1
        · rw [if_pos h2, if_pos (by omega)]
        · rw [if_neg h2, if_neg (by omega)]
      · rw [if_neg h1] at *
        by_cases h2 : W2 < S2 + 0
        · rw [if_pos h2, if_pos (by omega)]
        · rw [if_neg h2, if_neg (by omega)]
    rw [hbo, hSdec]
    rw [hP1] at ih3
    have E1 : (S2 + b1) * (10 * Q) = 10 * (S2 * Q) + 10 * (b1 * Q) := by ring
    rw [E1] at ih3
    have E2 : (s + 10 * S2 + b) * Q = s * Q + 10 * (S2 * Q) + b * Q := by ring
    rw [E2]
    have E5a : (out + s + b) * Q = (d + 10 * b1) * Q := by rw [hident]
    have E5b : (out + s + b) * Q = out * Q + s * Q + b * Q := by ring
    have E5c : (d + 10 * b1) * Q = d * Q + 10 * (b1 * Q) := by ring
    rw [← hd_def] at hvpe
    omega

/-! ## Long division: trial digit and window comparison -/

theorem trial_eq {r d : List Nat} (hr : ∀ x ∈ r, x < 10) (hd : ∀ x ∈ d, x < 10)
    {k m : Nat} (hm : 2 ≤ m)
    (hA : Nat.ofDigits 10 r < 10 ^ (k + m + 1)) (hD : Nat.ofDigits 10 d < 10 ^ m) :
    trial r d k m =
      min (Nat.ofDigits 10 r / 10 ^ (k + m - 2) / (Nat.ofDigits 10 d / 10 ^ (m - 2))) 9 := by
  have hp : (0:ℕ) < 10 ^ (k + m - 2) := Nat.pos_pow_of_pos _ (by norm_num)
  have hq : (0:ℕ) < 10 ^ (m - 2) := Nat.pos_pow_of_pos _ (by norm_num)
  have he1000 : (10:ℕ) ^ (k + m + 1) = 1000 * 10 ^ (k + m - 2) := by
    conv_lhs => rw [← (show k + m - 2 + 3 = k + m + 1 by omega)]
    ring
  have he100 : (10:ℕ) ^ m = 100 * 10 ^ (m - 2) := by
    conv_lhs => rw [← (show m - 2 + 2 = m by omega)]
    ring
  have hekm : (10:ℕ) ^ (k + m) = 10 ^ (k + m - 2) * 100 := by
    conv_lhs => rw [← (show k + m - 2 + 2 = k + m by omega)]
    ring
  have hekm1 : (10:ℕ) ^ (k + m - 1) = 10 ^ (k + m - 2) * 10 := by
    conv_lhs => rw [← (show k + m - 2 + 1 = k + m - 1 by omega)]
    ring
  have hem1 : (10:ℕ) ^ (m - 1) = 10 ^ (m - 2) * 10 := by
    conv_lhs => rw [← (show m - 2 + 1 = m - 1 by omega)]
    ring
  have hBlt : Nat.ofDigits 10 r / 10 ^ (k + m - 2) < 1000 := by
    rw [Nat.div_lt_iff_lt_mul hp]
    omega
  have hClt : Nat.ofDigits 10 d / 10 ^ (m - 2) < 100 := by
    rw [Nat.div_lt_iff_lt_mul hq]
    omega
  have hr2 : r.getD (k + m) 0 = Nat.ofDigits 10 r / 10 ^ (k + m - 2) / 100 % 10 := by
    rw [getD_eq_val_div r hr, hekm, ← Nat.div_div_eq_div_mul]
  have hr1 : r.getD (k + m - 1) 0 = Nat.ofDigits 10 r / 10 ^ (k + m - 2) / 10 % 10 := by
    rw [getD_eq_val_div r hr, hekm1, ← Nat.div_div_eq_div_mul]
  have hr0 : r.getD (k + m - 2) 0 = Nat.ofDigits 10 r / 10 ^ (k + m - 2) % 10 :=
    getD_eq_val_div r hr _
  have hd1 : d.getD (m - 1) 0 = Nat.ofDigits 10 d / 10 ^ (m - 2) / 10 % 10 := by
    rw [getD_eq_val_div d hd, hem1, ← Nat.div_div_eq_div_mul]
  have hd0 : d.getD (m - 2) 0 = Nat.ofDigits 10 d / 10 ^ (m - 2) % 10 :=
    getD_eq_val_div d hd _
  rw [trial]
  simp only [lookupD_eq]
  rw [hr2, hr1, hr0, hd1, hd0]
  have hrec3 : ∀ B : Nat, B < 1000 → (B / 100 % 10 * 10 + B / 10 % 10) * 10 + B % 10 = B := by
    intro B hB
    omega
  have hrec2 : ∀ C : Nat, C < 100 → C / 10 % 10 * 10 + C % 10 = C := by
    intro C hC
    omega
  rw [hrec3 _ hBlt, hrec2 _ hClt]

theorem trial_bounds {W D m : Nat} (hm : 2 ≤ m) (hD1 : 5 * 10 ^ (m - 1) ≤ D)
    (hD2 : D < 10 ^ m) (hW : W < 10 * D) :
    W / D ≤ min (W / 10 ^ (m - 2) / (D / 10 ^ (m - 2))) 9 ∧
    min (W / 10 ^ (m - 2) / (D / 10 ^ (m - 2))) 9 ≤ W / D + 1 := by
  have hq : (0:ℕ) < 10 ^ (m - 2) := Nat.pos_pow_of_pos _ (by norm_num)
  have hpow : (10:ℕ) ^ (m - 1) = 10 * 10 ^ (m - 2) := by
    rw [show m - 1 = (m - 2) + 1 by omega]
    ring
  have hD0 : 0 < D := by
    have : (0:ℕ) < 10 ^ (m - 1) := Nat.pos_pow_of_pos _ (by norm_num)
    omega
  have hd2_50 : 50 ≤ D / 10 ^ (m - 2) := by
    have h1 : 50 * 10 ^ (m - 2) ≤ D := by omega
    calc 50 = 50 * 10 ^ (m - 2) / 10 ^ (m - 2) := by rw [Nat.mul_div_cancel _ hq]
      _ ≤ D / 10 ^ (m - 2) := Nat.div_le_div_right h1
  have hd2_0 : 0 < D / 10 ^ (m - 2) := by omega
  have hq9 : W / D ≤ 9 := by
    have := (Nat.div_lt_iff_lt_mul hD0).mpr hW
    omega
  constructor
  · apply le_min _ hq9
    have hle1 : D / 10 ^ (m - 2) * 10 ^ (m - 2) ≤ D := Nat.div_mul_le_self D _
    have hpos : 0 < D / 10 ^ (m - 2) * 10 ^ (m - 2) := Nat.mul_pos hd2_0 hq
    calc W / D ≤ W / (D / 10 ^ (m - 2) * 10 ^ (m - 2)) :=
          Nat.div_le_div_left hle1 hpos
      _ = W / 10 ^ (m - 2) / (D / 10 ^ (m - 2)) := by
          rw [Nat.div_div_eq_div_mul, Nat.mul_comm]
  · by_cases hq8 : 8 ≤ W / D
    · have : min (W / 10 ^ (m - 2) / (D / 10 ^ (m - 2))) 9 ≤ 9 := min_le_right _ _
      omega
    · -- W / D ≤ 7; show the two-digit estimate is at most one too high
      by_contra hcon
      push_neg at hcon
      have hqhat : W / D + 2 ≤ W / 10 ^ (m - 2) / (D / 10 ^ (m - 2)) := by
        rcases le_or_lt (W / 10 ^ (m - 2) / (D / 10 ^ (m - 2))) 9 with hle | hgt
        · rw [min_eq_left hle] at hcon
          omega
        · omega
      set q := W / D with hqdef
      set qh := W / 10 ^ (m - 2) / (D / 10 ^ (m - 2)) with hqhdef
      set d2 := D / 10 ^ (m - 2) with hd2def
      set r3 := W / 10 ^ (m - 2) with hr3def
      -- qh * d2 * P ≤ r3 * P ≤ W
      have h1 : qh * d2 ≤ r3 := Nat.div_mul_le_self r3 d2
      have h2 : r3 * 10 ^ (m - 2) ≤ W := Nat.div_mul_le_self W (10 ^ (m - 2))
      have h3 : qh * d2 * 10 ^ (m - 2) ≤ W :=
        le_trans (Nat.mul_le_mul_right _ h1) h2
      -- W < (q + 1) * D  and  D < (d2 + 1) * P
      have hdm : D * q + W % D = W := by
        rw [hqdef]
        exact Nat.div_add_mod W D
      have hmodD : W % D < D := Nat.mod_lt _ hD0
      have h4 : W < (q + 1) * D := by
        have hexp : (q + 1) * D = D * q + D := by ring
        omega
      have hdm2 : 10 ^ (m - 2) * d2 + D % 10 ^ (m - 2) = D := by
        rw [hd2def]
        exact Nat.div_add_mod D _
      have hmodP : D % 10 ^ (m - 2) < 10 ^ (m - 2) := Nat.mod_lt _ hq
      have h5 : D < (d2 + 1) * 10 ^ (m - 2) := by
        have hexp : (d2 + 1) * 10 ^ (m - 2) = 10 ^ (m - 2) * d2 + 10 ^ (m - 2) := by ring
        omega
      have h6 : (q + 1) * D < (q + 1) * ((d2 + 1) * 10 ^ (m - 2)) :=
        mul_lt_mul_of_pos_left h5 (Nat.succ_pos q)
      have h7 : qh * d2 * 10 ^ (m - 2) < (q + 1) * (d2 + 1) * 10 ^ (m - 2) := by
        have h6b : (q + 1) * ((d2 + 1) * 10 ^ (m - 2)) =
            (q + 1) * (d2 + 1) * 10 ^ (m - 2) := by ring
        omega
      have h8 : qh * d2 < (q + 1) * (d2 + 1) :=
        lt_of_mul_lt_mul_right h7 (Nat.zero_le _)
      have h9 : (q + 2) * d2 ≤ qh * d2 := Nat.mul_le_mul_right _ hqhat
      have h10 : (q + 2) * d2 = q * d2 + 2 * d2 := by ring
      have h11 : (q + 1) * (d2 + 1) = q * d2 + d2 + q + 1 := by ring
      omega

theorem smallerGo_spec {r dq : List Nat} (hr : ∀ x ∈ r, x < 10) (hdq : ∀ x ∈ dq, x < 10)
    (k : Nat) :
    ∀ i, smallerGo r dq k i =
      decide (Nat.ofDigits 10 r / 10 ^ k % 10 ^ (i + 1) <
        Nat.ofDigits 10 dq % 10 ^ (i + 1)) := by
  intro i
  induction i with
  | zero =>
    show decide (lookupD r k < lookupD dq 0) = _
    simp only [lookupD_eq]
    rw [decide_eq_decide, getD_eq_val_div r hr k, getD_eq_val_div dq hdq 0]
    norm_num
  | succ i ih =>
    have hstep : smallerGo r dq k (i + 1) =
        (if r.getD (i + 1 + k) 0 == dq.getD (i + 1) 0 then smallerGo r dq k i
          else decide (r.getD (i + 1 + k) 0 < dq.getD (i + 1) 0)) := rfl
    rw [hstep]
    have ha1 : r.getD (i + 1 + k) 0 =
        Nat.ofDigits 10 r / 10 ^ k / 10 ^ (i + 1) % 10 := by
      rw [getD_eq_val_div r hr, show (10:ℕ) ^ (i + 1 + k) = 10 ^ k * 10 ^ (i + 1) by
        rw [← pow_add]; congr 1; omega, ← Nat.div_div_eq_div_mul]
    have hb1 : dq.getD (i + 1) 0 = Nat.ofDigits 10 dq / 10 ^ (i + 1) % 10 :=
      getD_eq_val_div dq hdq _
    set X := Nat.ofDigits 10 r / 10 ^ k with hX
    set Y := Nat.ofDigits 10 dq with hY
    have hXdec : X % 10 ^ (i + 1 + 1) =
        X % 10 ^ (i + 1) + X / 10 ^ (i + 1) % 10 * 10 ^ (i + 1) := by
      have h1 : X % (10 ^ (i + 1) * 10) =
          X % 10 ^ (i + 1) + 10 ^ (i + 1) * (X / 10 ^ (i + 1) % 10) := Nat.mod_mul
      rw [pow_succ, h1]
      ring
    have hYdec : Y % 10 ^ (i + 1 + 1) =
        Y % 10 ^ (i + 1) + Y / 10 ^ (i + 1) % 10 * 10 ^ (i + 1) := by
      have h1 : Y % (10 ^ (i + 1) * 10) =
          Y % 10 ^ (i + 1) + 10 ^ (i + 1) * (Y / 10 ^ (i + 1) % 10) := Nat.mod_mul
      rw [pow_succ, h1]
      ring
    have hPpos : (0:ℕ) < 10 ^ (i + 1) := Nat.pos_pow_of_pos _ (by norm_num)
    have hXm : X % 10 ^ (i + 1) < 10 ^ (i + 1) := Nat.mod_lt _ hPpos
    have hYm : Y % 10 ^ (i + 1) < 10 ^ (i + 1) := Nat.mod_lt _ hPpos
    by_cases heq : r.getD (i + 1 + k) 0 = dq.getD (i + 1) 0
    · rw [if_pos (by simpa using heq), ih]
      rw [ha1, hb1] at heq
      rw [decide_eq_decide, hXdec, hYdec, heq]
      omega
    · rw [if_neg (by simpa using heq)]
      rw [ha1, hb1] at heq
      rw [decide_eq_decide, ha1, hb1, hXdec, hYdec, msb_first_lt_iff hXm hYm]
      constructor
      · intro h
        exact Or.inl h
      · rintro (h | ⟨h, _⟩)
        · exact h
        · exact absurd h heq

/-! ## Long division: the main loop -/

theorem ldLoop_spec (dnsi : NonSmallInt) (m : Nat) (hm : 2 ≤ m) (hdv : dnsi.Valid)
    (hD1 : 5 * 10 ^ (m - 1) ≤ dnsi.val) (hD2 : dnsi.val < 10 ^ m) :
    ∀ (c : Nat) (r : List Nat), (∀ x ∈ r, x < 10) →
      Nat.ofDigits 10 r < 10 ^ (c + m) →
      Nat.ofDigits 10 r < dnsi.val * 10 ^ c →
      c + m ≤ r.length + 1 →
      (∀ x ∈ (ldLoop dnsi m c r).1, x < 10) ∧
      (ldLoop dnsi m c r).1.length = c ∧
      Nat.ofDigits 10 (ldLoop dnsi m c r).1 = Nat.ofDigits 10 r / dnsi.val ∧
      (∀ x ∈ (ldLoop dnsi m c r).2, x < 10) ∧
      Nat.ofDigits 10 (ldLoop dnsi m c r).2 = Nat.ofDigits 10 r % dnsi.val := by
  have hDpos : 0 < dnsi.val := by
    have : (0:ℕ) < 10 ^ (m - 1) := Nat.pos_pow_of_pos _ (by norm_num)
    omega
  intro c
  induction c with
  | zero =>
    intro r hr hA1 hA2 hlen
    have hAD : Nat.ofDigits 10 r < dnsi.val := by
      rw [pow_zero, Nat.mul_one] at hA2
      exact hA2
    refine ⟨by simp [ldLoop], by simp [ldLoop], ?_, ?_, ?_⟩
    · show Nat.ofDigits 10 [] = Nat.ofDigits 10 r / dnsi.val
      rw [Nat.ofDigits_nil, Nat.div_eq_of_lt hAD]
    · exact hr
    · show Nat.ofDigits 10 r = Nat.ofDigits 10 r % dnsi.val
      rw [Nat.mod_eq_of_lt hAD]
  | succ c ih =>
    intro r hr hA1 hA2 hlen
    have hpk : (0:ℕ) < 10 ^ c := Nat.pos_pow_of_pos _ (by norm_num)
    have hpm1 : (0:ℕ) < 10 ^ (m + 1) := Nat.pos_pow_of_pos _ (by norm_num)
    have hW10 : Nat.ofDigits 10 r / 10 ^ c < 10 ^ (m + 1) := by
      rw [Nat.div_lt_iff_lt_mul hpk]
      have he : (10:ℕ) ^ (m + 1) * 10 ^ c = 10 ^ (c + 1 + m) := by
        rw [← pow_add]
        congr 1
        omega
      omega
    have hWD : Nat.ofDigits 10 r / 10 ^ c < 10 * dnsi.val := by
      rw [Nat.div_lt_iff_lt_mul hpk]
      have he : 10 * dnsi.val * 10 ^ c = dnsi.val * 10 ^ (c + 1) := by ring
      omega
    have hq9 : Nat.ofDigits 10 r / 10 ^ c / dnsi.val ≤ 9 := by
      have h1 := (Nat.div_lt_iff_lt_mul hDpos).mpr hWD
      omega
    -- the trial digit is the true quotient digit or one above it
    have htrial : trial r dnsi.digits c m =
        min (Nat.ofDigits 10 r / 10 ^ c / 10 ^ (m - 2) /
          (dnsi.val / 10 ^ (m - 2))) 9 := by
      have he1 : Nat.ofDigits 10 r < 10 ^ (c + m + 1) := by
        have : (10:ℕ) ^ (c + 1 + m) = 10 ^ (c + m + 1) := by
          congr 1
          omega
        omega
      have h0 := trial_eq hr hdv hm he1 hD2
      have he2 : Nat.ofDigits 10 r / 10 ^ (c + m - 2) =
          Nat.ofDigits 10 r / 10 ^ c / 10 ^ (m - 2) := by
        rw [Nat.div_div_eq_div_mul, ← pow_add]
        congr 2
        omega
      have h0b : Nat.ofDigits 10 dnsi.digits = dnsi.val := rfl
      rw [h0, he2, h0b]
    have hbounds := trial_bounds (W := Nat.ofDigits 10 r / 10 ^ c) (D := dnsi.val)
      hm hD1 hD2 hWD
    rw [← htrial] at hbounds
    set qt := trial r dnsi.digits c m with hqt_def
    set qd := Nat.ofDigits 10 r / 10 ^ c / dnsi.val with hqd_def
    have hqtb : qd ≤ qt ∧ qt ≤ qd + 1 := hbounds
    obtain ⟨hdqval, hdqvalid, _⟩ := mulU32_val hdv qt
    have hqt9 : qt ≤ 9 := by
      rw [htrial]
      exact min_le_right _ _
    have hqdD : qd * dnsi.val ≤ Nat.ofDigits 10 r / 10 ^ c := by
      rw [hqd_def]
      exact Nat.div_mul_le_self _ _
    have hWltq1 : Nat.ofDigits 10 r / 10 ^ c < (qd + 1) * dnsi.val := by
      have hdm : dnsi.val * qd + Nat.ofDigits 10 r / 10 ^ c % dnsi.val =
          Nat.ofDigits 10 r / 10 ^ c := by
        rw [hqd_def]
        exact Nat.div_add_mod _ _
      have hmodD : Nat.ofDigits 10 r / 10 ^ c % dnsi.val < dnsi.val :=
        Nat.mod_lt _ hDpos
      have hexp : (qd + 1) * dnsi.val = dnsi.val * qd + dnsi.val := by ring
      omega
    -- the window comparison decides exactly whether the candidate is too big
    have h10m1 : (10:ℕ) ^ (m + 1) = 10 * 10 ^ m := by ring
    have hdqlt : qt * dnsi.val < 10 ^ (m + 1) := by
      have h1 : qt * dnsi.val ≤ 9 * dnsi.val := Nat.mul_le_mul_right _ hqt9
      omega
    have hsmaller : smaller r (dnsi.mulU32 qt).digits c m =
        decide (Nat.ofDigits 10 r / 10 ^ c < qt * dnsi.val) := by
      rw [smaller, smallerGo_spec hr (fun x hx => hdqvalid x hx) c m]
      have hv1 : Nat.ofDigits 10 (dnsi.mulU32 qt).digits = qt * dnsi.val := hdqval
      rw [hv1, Nat.mod_eq_of_lt hW10, Nat.mod_eq_of_lt hdqlt]
    -- after the single correction the selected digit is exactly qd
    have hsel : (if smaller r (dnsi.mulU32 qt).digits c m
        then (qt - 1, dnsi.mulU32 (qt - 1)) else (qt, dnsi.mulU32 qt)) =
        (qd, dnsi.mulU32 qd) := by
      rcases Nat.eq_or_lt_of_le hqtb.1 with heq | hlt
      · -- qt = qd: the window is not smaller than the candidate
        rw [hsmaller, if_neg]
        · rw [← heq]
        · simp only [decide_eq_true_eq]
          rw [← heq]
          omega
      · -- qt = qd + 1: the window is smaller, and the digit is corrected down
        have heq1 : qt = qd + 1 := by omega
        rw [hsmaller, if_pos]
        · rw [heq1]
          simp
        · simp only [decide_eq_true_eq]
          rw [heq1]
          exact hWltq1
    have hres : ldLoop dnsi m (c + 1) r =
        ((ldLoop dnsi m c (difference r (dnsi.mulU32 qd).digits c m)).1 ++ [qd],
          (ldLoop dnsi m c (difference r (dnsi.mulU32 qd).digits c m)).2) := by
      show ((ldLoop dnsi m c (difference r
          (if smaller r (dnsi.mulU32 qt).digits c m
            then (qt - 1, dnsi.mulU32 (qt - 1)) else (qt, dnsi.mulU32 qt)).2.digits c m)).1 ++
          [(if smaller r (dnsi.mulU32 qt).digits c m
            then (qt - 1, dnsi.mulU32 (qt - 1)) else (qt, dnsi.mulU32 qt)).1],
        (ldLoop dnsi m c (difference r
          (if smaller r (dnsi.mulU32 qt).digits c m
            then (qt - 1, dnsi.mulU32 (qt - 1)) else (qt, dnsi.mulU32 qt)).2.digits c m)).2) = _
      rw [hsel]
    obtain ⟨hdq2val, hdq2valid, _⟩ := mulU32_val hdv qd
    -- subtract the candidate from the window in place
    have hck : 0 + c ≤ r.length := by omega
    obtain ⟨hd1, hd2, hd3⟩ := @diffGo_spec (dnsi.mulU32 qd).digits
      (fun x hx => hdq2valid x hx) c (m + 1) 0 0 r hr (by omega) hck
    have hqdDlt : qd * dnsi.val < 10 ^ (m + 1) := by
      have h1 : qd * dnsi.val ≤ 9 * dnsi.val := Nat.mul_le_mul_right _ hq9
      omega
    have hS : Nat.ofDigits 10 (dnsi.mulU32 qd).digits / 10 ^ 0 % 10 ^ (m + 1) =
        qd * dnsi.val := by
      rw [pow_zero, Nat.div_one,
        show Nat.ofDigits 10 (dnsi.mulU32 qd).digits = (dnsi.mulU32 qd).val from rfl,
        hdq2val, Nat.mod_eq_of_lt hqdDlt]
    have hWmod : Nat.ofDigits 10 r / 10 ^ (0 + c) % 10 ^ (m + 1) =
        Nat.ofDigits 10 r / 10 ^ c := by
      rw [Nat.zero_add, Nat.mod_eq_of_lt hW10]
    rw [difference] at *
    rw [hS, hWmod] at hd3
    rw [if_neg (by omega)] at hd3
    rw [Nat.zero_add, Nat.zero_mul, Nat.add_zero] at hd3
    -- hd3 : A2 + (qd * D + 0) * 10 ^ c = A
    have hd3b : Nat.ofDigits 10 (diffGo (dnsi.mulU32 qd).digits c (m + 1) 0 0 r) +
        qd * dnsi.val * 10 ^ c = Nat.ofDigits 10 r := by
      have : (qd * dnsi.val + 0) * 10 ^ c = qd * dnsi.val * 10 ^ c := by ring
      omega
    set A2 := Nat.ofDigits 10 (diffGo (dnsi.mulU32 qd).digits c (m + 1) 0 0 r) with hA2_def
    -- the updated buffer is exactly the old value minus the subtracted multiple
    have hqdiv : qd = Nat.ofDigits 10 r / (dnsi.val * 10 ^ c) := by
      rw [hqd_def, Nat.div_div_eq_div_mul, Nat.mul_comm]
    have hDk_pos : 0 < dnsi.val * 10 ^ c := Nat.mul_pos hDpos hpk
    have hA2mod : A2 = Nat.ofDigits 10 r % (dnsi.val * 10 ^ c) := by
      have hdm := Nat.div_add_mod (Nat.ofDigits 10 r) (dnsi.val * 10 ^ c)
      rw [← hqdiv] at hdm
      have hexp : dnsi.val * 10 ^ c * qd = qd * dnsi.val * 10 ^ c := by ring
      omega
    have hA2lt : A2 < dnsi.val * 10 ^ c := by
      rw [hA2mod]
      exact Nat.mod_lt _ hDk_pos
    have hA2pow : A2 < 10 ^ (c + m) := by
      have h1 : dnsi.val * 10 ^ c ≤ 10 ^ (c + m) := by
        have h2 : (10:ℕ) ^ (c + m) = 10 ^ m * 10 ^ c := by
          rw [← pow_add]
          congr 1
          omega
        have := Nat.mul_le_mul_right (10 ^ c) (le_of_lt hD2)
        omega
      omega
    obtain ⟨ihq1, ihq2, ihq3, ihr1, ihr2⟩ := ih (diffGo (dnsi.mulU32 qd).digits c (m + 1) 0 0 r)
      hd1 hA2pow hA2lt (by omega)
    rw [hres]
    refine ⟨?_, ?_, ?_, ihr1, ?_⟩
    · intro x hx
      rcases List.mem_append.mp hx with h | h
      · exact ihq1 x h
      · simp at h
        omega
    · simp [ihq2]
    · rw [Nat.ofDigits_append, ihq2, ihq3]
      have hq1 : Nat.ofDigits 10 [qd] = qd := by
        simp [Nat.ofDigits_cons, Nat.ofDigits_nil]
      rw [hq1]
      -- A / D = A2 / D + qd * 10 ^ c
      have hsplit : Nat.ofDigits 10 r = A2 + qd * 10 ^ c * dnsi.val := by
        have : qd * dnsi.val * 10 ^ c = qd * 10 ^ c * dnsi.val := by ring
        omega
      rw [hsplit, Nat.add_mul_div_right _ _ hDpos, ← hA2_def]
      ring
    · rw [ihr2]
      have hsplit : Nat.ofDigits 10 r = A2 + qd * 10 ^ c * dnsi.val := by
        have : qd * dnsi.val * 10 ^ c = qd * 10 ^ c * dnsi.val := by ring
        omega
      rw [hsplit, Nat.add_mul_mod_self_right]

/-! ## Long division: top level -/

theorem normalization_facts {d1 : Nat} (h1 : 1 ≤ d1) (h9 : d1 ≤ 9) :
    1 ≤ 10 / (d1 + 1) ∧ 5 ≤ 10 / (d1 + 1) * d1 ∧ 10 / (d1 + 1) * (d1 + 1) ≤ 10 := by
  interval_cases d1 <;> decide

theorem long_division_spec {a b : NonSmallInt} (ha : a.Valid) (hb : b.Valid)
    (hm2 : 2 ≤ b.length) (hnm : b.length ≤ a.length) :
    ∃ q r, long_division a b = some (q, r) ∧ q.Valid ∧ r.Valid ∧
      q.val = a.val / b.val ∧ r.val = a.val % b.val := by
  have hbz : b.is_zero = false := by
    cases hz : b.is_zero
    · rfl
    · have := (length_eq_zero_iff b).mpr hz
      omega
  have hbval_lt : b.val < 10 ^ b.length := val_lt_pow_length hb
  have hbval_ge : 10 ^ (b.length - 1) ≤ b.val := pow_length_le_val hb (by omega)
  have hpm1 : (0:ℕ) < 10 ^ (b.length - 1) := Nat.pos_pow_of_pos _ (by norm_num)
  have hpow_m : (10:ℕ) ^ b.length = 10 ^ (b.length - 1) * 10 := by
    conv_lhs => rw [← (show b.length - 1 + 1 = b.length by omega)]
    ring
  have hd1 : b.digits.getD (b.length - 1) 0 = b.val / 10 ^ (b.length - 1) := by
    have h1 := getD_eq_val_div b.digits hb (b.length - 1)
    have h2 : b.val / 10 ^ (b.length - 1) < 10 := by
      rw [Nat.div_lt_iff_lt_mul hpm1]
      omega
    rw [h1, show Nat.ofDigits 10 b.digits = b.val from rfl, Nat.mod_eq_of_lt h2]
  have hd1ge : 1 ≤ b.digits.getD (b.length - 1) 0 := by
    rw [hd1]
    exact (Nat.one_le_div_iff hpm1).mpr hbval_ge
  have hd1le : b.digits.getD (b.length - 1) 0 ≤ 9 := by
    rw [hd1]
    have h2 : b.val / 10 ^ (b.length - 1) < 10 := by
      rw [Nat.div_lt_iff_lt_mul hpm1]
      omega
    omega
  obtain ⟨hfge, hfd1, hfd11⟩ := normalization_facts hd1ge hd1le
  set d1 := b.digits.getD (b.length - 1) 0 with hd1_def
  set f := 10 / (d1 + 1) with hf_def
  have hf10 : f ≤ 10 := Nat.div_le_self _ _
  obtain ⟨hbfval, hbfvalid, hbflen⟩ := mulU32_val hb f
  obtain ⟨hafval, hafvalid, haflen⟩ := mulU32_val ha f
  have hd1mul : d1 * 10 ^ (b.length - 1) ≤ b.val := by
    rw [hd1]
    exact Nat.div_mul_le_self _ _
  have hd1mul2 : b.val < (d1 + 1) * 10 ^ (b.length - 1) := by
    have hdm := Nat.div_add_mod b.val (10 ^ (b.length - 1))
    have hmod := Nat.mod_lt b.val hpm1
    have hexp : (d1 + 1) * 10 ^ (b.length - 1) =
        10 ^ (b.length - 1) * (b.val / 10 ^ (b.length - 1)) + 10 ^ (b.length - 1) := by
      rw [hd1]
      ring
    omega
  have hDge : 5 * 10 ^ (b.length - 1) ≤ (b.mulU32 f).val := by
    rw [hbfval]
    calc 5 * 10 ^ (b.length - 1) ≤ f * d1 * 10 ^ (b.length - 1) :=
          Nat.mul_le_mul_right _ hfd1
      _ = f * (d1 * 10 ^ (b.length - 1)) := by ring
      _ ≤ f * b.val := Nat.mul_le_mul_left _ hd1mul
  have hDlt : (b.mulU32 f).val < 10 ^ b.length := by
    rw [hbfval]
    calc f * b.val < f * ((d1 + 1) * 10 ^ (b.length - 1)) :=
          mul_lt_mul_of_pos_left hd1mul2 (by omega)
      _ = f * (d1 + 1) * 10 ^ (b.length - 1) := by ring
      _ ≤ 10 * 10 ^ (b.length - 1) := Nat.mul_le_mul_right _ hfd11
      _ = 10 ^ b.length := by
          rw [hpow_m]
          ring
  have haval_lt : a.val < 10 ^ a.length := val_lt_pow_length ha
  have hc1 : (a.mulU32 f).val < 10 ^ (a.length - b.length + 1 + b.length) := by
    rw [hafval]
    have he : (10:ℕ) ^ (a.length - b.length + 1 + b.length) = 10 ^ (a.length + 1) := by
      congr 1
      omega
    have he2 : (10:ℕ) ^ (a.length + 1) = 10 * 10 ^ a.length := by ring
    have h3 : f * a.val ≤ 10 * a.val := Nat.mul_le_mul_right _ hf10
    omega
  have hc2 : (a.mulU32 f).val < (b.mulU32 f).val * 10 ^ (a.length - b.length + 1) := by
    rw [hafval, hbfval]
    have he : (10:ℕ) ^ a.length = 10 ^ (b.length - 1) * 10 ^ (a.length - b.length + 1) := by
      rw [← pow_add]
      congr 1
      omega
    have h1 : a.val < b.val * 10 ^ (a.length - b.length + 1) := by
      calc a.val < 10 ^ a.length := haval_lt
        _ = 10 ^ (b.length - 1) * 10 ^ (a.length - b.length + 1) := he
        _ ≤ b.val * 10 ^ (a.length - b.length + 1) :=
            Nat.mul_le_mul_right _ hbval_ge
    calc f * a.val < f * (b.val * 10 ^ (a.length - b.length + 1)) :=
          mul_lt_mul_of_pos_left h1 (by omega)
      _ = f * b.val * 10 ^ (a.length - b.length + 1) := by ring
  have hc3 : a.length - b.length + 1 + b.length ≤ (a.mulU32 f).digits.length + 1 := by
    have h1 := length_le_digits_length a
    omega
  obtain ⟨hlq1, hlq2, hlq3, hlr1, hlr2⟩ := ldLoop_spec (b.mulU32 f) b.length hm2
    hbfvalid hDge hDlt (a.length - b.length + 1) (a.mulU32 f).digits hafvalid
    (by rw [show Nat.ofDigits 10 (a.mulU32 f).digits = (a.mulU32 f).val from rfl]; exact hc1)
    (by rw [show Nat.ofDigits 10 (a.mulU32 f).digits = (a.mulU32 f).val from rfl]; exact hc2)
    hc3
  -- the loop results, as values
  have hfpos : 0 < f := by omega
  have hbvalpos : 0 < b.val := by omega
  have hQval : Nat.ofDigits 10
      (ldLoop (b.mulU32 f) b.length (a.length - b.length + 1) (a.mulU32 f).digits).1 =
      a.val / b.val := by
    rw [hlq3, show Nat.ofDigits 10 (a.mulU32 f).digits = (a.mulU32 f).val from rfl,
      hafval, hbfval, Nat.mul_div_mul_left _ _ hfpos]
  have hRval : Nat.ofDigits 10
      (ldLoop (b.mulU32 f) b.length (a.length - b.length + 1) (a.mulU32 f).digits).2 =
      f * (a.val % b.val) := by
    rw [hlr2, show Nat.ofDigits 10 (a.mulU32 f).digits = (a.mulU32 f).val from rfl,
      hafval, hbfval, Nat.mul_mod_mul_left]
  -- undo the normalization of the remainder with the scalar division
  obtain ⟨qf, rf, hdiv, hqfval, hrfval, hqfvalid, hrfvalid, _⟩ :=
    div_u32_spec (a := ⟨(ldLoop (b.mulU32 f) b.length (a.length - b.length + 1)
      (a.mulU32 f).digits).2⟩) hlr1 hfpos
  refine ⟨⟨(ldLoop (b.mulU32 f) b.length (a.length - b.length + 1)
      (a.mulU32 f).digits).1⟩, qf, ?_, hlq1, hqfvalid, hQval, ?_⟩
  · show (if b.is_zero = true then none else _) = _
    rw [if_neg (by rw [hbz]; simp)]
    show some (_, (((NonSmallInt.mk (ldLoop (b.mulU32 f) b.length
        (a.length - b.length + 1) (a.mulU32 f).digits).2).div_u32 f).getD
        (⟨[]⟩, ⟨[]⟩)).1) = _
    rw [hdiv]
    rfl
  · rw [hqfval]
    show Nat.ofDigits 10 (ldLoop (b.mulU32 f) b.length
      (a.length - b.length + 1) (a.mulU32 f).digits).2 / f = _
    rw [hRval, Nat.mul_div_cancel_left _ hfpos]

/-! ## The division dispatch -/

theorem length_one_struct {v : NonSmallInt} (h : v.length = 1) :
    v.digits.getD 0 0 ≠ 0 ∧ v.digits.getD 0 0 = v.val := by
  rw [NonSmallInt.length] at h
  obtain ⟨d0, hs⟩ := List.length_eq_one.mp h
  have hd0 : d0 ≠ 0 := by
    rw [stripMSB] at hs
    have := dropWhile_head_false _ _ _ _ hs
    simpa using this
  obtain ⟨j, hdecomp⟩ := strip_decomp v.digits
  rw [hs] at hdecomp
  have hsimp : ([d0].reverse : List Nat) ++ List.replicate j 0 = d0 :: List.replicate j 0 := by
    simp
  rw [hsimp] at hdecomp
  constructor
  · rw [hdecomp]
    simpa using hd0
  · rw [NonSmallInt.val, hdecomp]
    simp [Nat.ofDigits_cons, ofDigits_replicate_zero]

theorem length_pos_of_not_zero {b : NonSmallInt} (hbz : b.is_zero = false) : 1 ≤ b.length := by
  rcases Nat.eq_zero_or_pos b.length with h0 | h1
  · have := (length_eq_zero_iff b).mp h0
    rw [this] at hbz
    cases hbz
  · exact h1

theorem div_nsi_eq_none_iff (a b : NonSmallInt) :
    a.div_nsi b = none ↔ b.is_zero = true := by
  rw [NonSmallInt.div_nsi]
  by_cases hz : b.is_zero = true
  · simp [hz]
  · rw [if_neg hz]
    constructor
    · intro h
      exfalso
      by_cases h1 : b.length = 1
      · rw [if_pos h1] at h
        have hnz := (length_one_struct h1).1
        rw [NonSmallInt.div_u32, if_neg (by simpa [lookupD_eq] using hnz)] at h
        simp at h
      · rw [if_neg h1] at h
        by_cases h2 : a.length < b.length
        · rw [if_pos h2] at h
          simp at h
        · rw [if_neg h2, long_division, if_neg hz] at h
          simp at h
    · intro h
      exact absurd h hz

theorem div_nsi_spec {a b : NonSmallInt} (ha : a.Valid) (hb : b.Valid)
    (hbz : b.is_zero = false) :
    ∃ q r, a.div_nsi b = some (q, r) ∧ q.Valid ∧ r.Valid ∧
      q.val = a.val / b.val ∧ r.val = a.val % b.val := by
  rw [NonSmallInt.div_nsi, if_neg (by rw [hbz]; simp)]
  by_cases h1 : b.length = 1
  · rw [if_pos h1]
    obtain ⟨hnz, hval⟩ := length_one_struct h1
    have hpos : 0 < lookupD b.digits 0 := by
      rw [lookupD_eq]
      omega
    obtain ⟨q, r, hd, hqv, hrv, hqvalid, hrvalid, _⟩ := div_u32_spec ha hpos
    refine ⟨q, r, hd, hqvalid, hrvalid, ?_, ?_⟩
    · rw [hqv, lookupD_eq, hval]
    · rw [hrv, lookupD_eq, hval]
  · rw [if_neg h1]
    by_cases h2 : a.length < b.length
    · rw [if_pos h2]
      have hb1 : 1 ≤ b.length := length_pos_of_not_zero hbz
      have hvlt : a.val < b.val := by
        calc a.val < 10 ^ a.length := val_lt_pow_length ha
          _ ≤ 10 ^ (b.length - 1) := Nat.pow_le_pow_right (by norm_num) (by omega)
          _ ≤ b.val := pow_length_le_val hb hb1
      refine ⟨⟨[]⟩, a, rfl, ?_, ha, ?_, ?_⟩
      · intro d hd
        simp at hd
      · show Nat.ofDigits 10 [] = a.val / b.val
        rw [Nat.ofDigits_nil]
        exact (Nat.div_eq_of_lt hvlt).symm
      · show a.val = a.val % b.val
        exact (Nat.mod_eq_of_lt hvlt).symm
    · rw [if_neg h2]
      have hb1 : 1 ≤ b.length := length_pos_of_not_zero hbz
      exact long_division_spec ha hb (by omega) (by omega)

/-! ## Helper lemmas shared by the claim theorems -/

/-- A run of zeros at the head of the scanned list is skipped entirely by
dropWhile when the predicate holds at zero. -/
theorem dropWhile_replicate_zero_append (p : Nat → Bool) (h : p 0 = true) :
    ∀ j (l : List Nat), List.dropWhile p (List.replicate j 0 ++ l) = List.dropWhile p l := by
  intro j
  induction j with
  | zero => intro l; rfl
  | succ j ih =>
    intro l
    rw [List.replicate_succ, List.cons_append, List.dropWhile_cons, if_pos h, ih]

/-- Appending most-significant zero digits does not change the stripped
(significant) digit sequence. -/
theorem strip_append_replicate (l : List Nat) (j : Nat) :
    stripMSB (l ++ List.replicate j 0) = stripMSB l := by
  rw [stripMSB, List.reverse_append, List.reverse_replicate,
    dropWhile_replicate_zero_append _ rfl]
  rfl

/-- A stored all-zero digit vector is recognised as zero by is_zero. -/
theorem is_zero_replicate (j : Nat) : (NonSmallInt.mk (List.replicate j 0)).is_zero = true := by
  rw [NonSmallInt.is_zero, Bool.or_eq_true]
  right
  rw [List.all_eq_true]
  intro d hd
  have : d = 0 := List.eq_of_mem_replicate hd
  rw [this]
  rfl

/-- A construct(y) with y positive is not the zero value. -/
theorem of_not_zero {y : Nat} (hy : 0 < y) : (NonSmallInt.of y).is_zero = false := by
  rw [Bool.eq_false_iff]
  intro h
  rw [is_zero_iff_val (of_valid y), of_val] at h
  omega

/-- The representation invariant, stated over the raw digit list (so that a
concrete instance can be discharged by decide). -/
theorem mk_valid {l : List Nat} (h : ∀ d ∈ l, d < 10) : (NonSmallInt.mk l).Valid := h

/-! ## The claim theorems -/

/-- Claim C1: for every pair of native integers x and y with y > 0, dividing
construct(x) by construct(y) succeeds with a quotient q and remainder r such
that construct(x) == q*construct(y) + r (as library equality) and
r < construct(y) (as library comparison), with q numerically equal to x div y
and r numerically equal to x mod y. -/
theorem C1_division_invariant (x y : Nat) (hy : 0 < y) :
    ∃ q r, (NonSmallInt.of x).div_nsi (NonSmallInt.of y) = some (q, r) ∧
      q.val = x / y ∧ r.val = x % y ∧
      (NonSmallInt.of x).eq ((q.mul (NonSmallInt.of y)).add r) = true ∧
      r.lt (NonSmallInt.of y) = true := by
  obtain ⟨q, r, hdiv, hqv, hrv, hqval, hrval⟩ :=
    div_nsi_spec (of_valid x) (of_valid y) (of_not_zero hy)
  rw [of_val, of_val] at hqval hrval
  refine ⟨q, r, hdiv, hqval, hrval, ?_, ?_⟩
  · have hmul := mul_val hqv (of_valid y)
    have hadd := add_val hmul.2 hrv
    rw [eq_iff_val (of_valid x) hadd.2, of_val, hadd.1, hmul.1, of_val, hqval, hrval]
    exact (Nat.div_add_mod' x y).symm
  · rw [lt_iff_val hrv (of_valid y), of_val, hrval]
    exact decide_eq_true (Nat.mod_lt x hy)

/-- Witness for C1 at x = 10000, y = 73 (a two-limb divisor, so the full
normalized long-division branch is the one exercised). -/
theorem C1_division_invariant_witness :
    0 < 73 ∧
    ∃ q r, (NonSmallInt.of 10000).div_nsi (NonSmallInt.of 73) = some (q, r) ∧
      q.val = 10000 / 73 ∧ r.val = 10000 % 73 ∧
      (NonSmallInt.of 10000).eq ((q.mul (NonSmallInt.of 73)).add r) = true ∧
      r.lt (NonSmallInt.of 73) = true :=
  ⟨by decide, C1_division_invariant 10000 73 (by decide)⟩

/-- Claim C2: a division returns no result exactly when the divisor is zero:
the scalar entry point div_u32 returns none iff the scalar divisor is 0, and
the full-value entry point div_nsi returns none iff the divisor is the zero
value. -/
theorem C2_division_by_zero (a b : NonSmallInt) (rhs : Nat) :
    (a.div_u32 rhs = none ↔ rhs = 0) ∧ (a.div_nsi b = none ↔ b.is_zero = true) :=
  ⟨div_u32_eq_none_iff a rhs, div_nsi_eq_none_iff a b⟩

/-- Claim C3: checked subtraction returns no result exactly when the minuend
is strictly smaller than the subtrahend, otherwise it succeeds with the
difference; in particular for native x >= y, construct(x) - construct(y)
equals construct(x-y). -/
theorem C3_checked_subtraction {a b : NonSmallInt} (ha : a.Valid) (hb : b.Valid) :
    (a.safe_sub b = none ↔ a.val < b.val) ∧
    (∀ r, a.safe_sub b = some r → r.val = a.val - b.val) ∧
    (∀ x y : Nat, y ≤ x → ∃ r, (NonSmallInt.of x).safe_sub (NonSmallInt.of y) = some r ∧
      r.eq (NonSmallInt.of (x - y)) = true) := by
  obtain ⟨hmap, hvalid⟩ := safe_sub_val ha hb
  refine ⟨⟨?_, ?_⟩, ?_, ?_⟩
  · intro h
    rw [h] at hmap
    by_contra hlt
    rw [if_neg hlt] at hmap
    simp at hmap
  · intro h
    rw [if_pos h] at hmap
    cases hs : a.safe_sub b with
    | none => rfl
    | some r => rw [hs] at hmap; simp at hmap
  · intro r hr
    by_cases hlt : a.val < b.val
    · rw [if_pos hlt, hr] at hmap
      simp at hmap
    · rw [if_neg hlt, hr] at hmap
      simpa using hmap
  · intro x y hxy
    obtain ⟨hmap2, hvalid2⟩ := safe_sub_val (of_valid x) (of_valid y)
    rw [of_val, of_val, if_neg (by omega)] at hmap2
    cases hs : (NonSmallInt.of x).safe_sub (NonSmallInt.of y) with
    | none => rw [hs] at hmap2; simp at hmap2
    | some r =>
      rw [hs] at hmap2
      simp at hmap2
      refine ⟨r, rfl, ?_⟩
      rw [eq_iff_val (hvalid2 r hs) (of_valid (x - y)), hmap2, of_val]

/-- Witness for C3 at a = 15 (stored [5,1]) and b = 6 (stored [6]). -/
theorem C3_checked_subtraction_witness :
    (NonSmallInt.mk [5, 1]).Valid ∧ (NonSmallInt.mk [6]).Valid ∧
    (((NonSmallInt.mk [5, 1]).safe_sub (NonSmallInt.mk [6]) = none ↔
        (NonSmallInt.mk [5, 1]).val < (NonSmallInt.mk [6]).val) ∧
      (∀ r, (NonSmallInt.mk [5, 1]).safe_sub (NonSmallInt.mk [6]) = some r →
        r.val = (NonSmallInt.mk [5, 1]).val - (NonSmallInt.mk [6]).val) ∧
      (∀ x y : Nat, y ≤ x → ∃ r, (NonSmallInt.of x).safe_sub (NonSmallInt.of y) = some r ∧
        r.eq (NonSmallInt.of (x - y)) = true)) :=
  ⟨mk_valid (by decide), mk_valid (by decide),
    C3_checked_subtraction (mk_valid (by decide)) (mk_valid (by decide))⟩

/-- Claim C4: addition, full multiplication and scalar multiplication agree
with native arithmetic on constructed values. -/
theorem C4_native_cross_check (x y s : Nat) :
    ((NonSmallInt.of x).add (NonSmallInt.of y)).eq (NonSmallInt.of (x + y)) = true ∧
    ((NonSmallInt.of x).mul (NonSmallInt.of y)).eq (NonSmallInt.of (x * y)) = true ∧
    ((NonSmallInt.of x).mulU32 s).eq (NonSmallInt.of (s * x)) = true := by
  have hadd := add_val (of_valid x) (of_valid y)
  have hmul := mul_val (of_valid x) (of_valid y)
  have hms := mulU32_val (of_valid x) s
  refine ⟨?_, ?_, ?_⟩
  · rw [eq_iff_val hadd.2 (of_valid (x + y)), hadd.1, of_val, of_val, of_val]
  · rw [eq_iff_val hmul.2 (of_valid (x * y)), hmul.1, of_val, of_val, of_val]
  · rw [eq_iff_val hms.2.1 (of_valid (s * x)), hms.1, of_val, of_val]

/-- Claim C5: the comparison of values agrees with the native order on
constructed values; lessThan returns true whenever the left significant
length is strictly smaller; and on arbitrary valid values cmp decides by
numeric value. -/
theorem C5_ordering_consistency (x y : Nat) {a b : NonSmallInt}
    (ha : a.Valid) (hb : b.Valid) :
    (NonSmallInt.of x).cmp (NonSmallInt.of y) = compare x y ∧
    (a.length < b.length → a.lt b = true) ∧
    a.cmp b = compare a.val b.val := by
  refine ⟨?_, ?_, cmp_compare ha hb⟩
  · rw [cmp_compare (of_valid x) (of_valid y), of_val, of_val]
  · intro hlen
    have hv : a.val < b.val :=
      calc a.val < 10 ^ a.length := val_lt_pow_length ha
        _ ≤ 10 ^ (b.length - 1) := Nat.pow_le_pow_right (by norm_num) (by omega)
        _ ≤ b.val := pow_length_le_val hb (by omega)
    rw [lt_iff_val ha hb]
    exact decide_eq_true hv

/-- Witness for C5 at x = 3, y = 7, a = 5 (stored [5]), b = 21 (stored [1,2]). -/
theorem C5_ordering_consistency_witness :
    (NonSmallInt.mk [5]).Valid ∧ (NonSmallInt.mk [1, 2]).Valid ∧
    ((NonSmallInt.of 3).cmp (NonSmallInt.of 7) = compare 3 7 ∧
      ((NonSmallInt.mk [5]).length < (NonSmallInt.mk [1, 2]).length →
        (NonSmallInt.mk [5]).lt (NonSmallInt.mk [1, 2]) = true) ∧
      (NonSmallInt.mk [5]).cmp (NonSmallInt.mk [1, 2]) =
        compare (NonSmallInt.mk [5]).val (NonSmallInt.mk [1, 2]).val) :=
  ⟨mk_valid (by decide), mk_valid (by decide),
    C5_ordering_consistency 3 7 (mk_valid (by decide)) (mk_valid (by decide))⟩

/-- Claim C6, counterexample: parsing "0123" succeeds with stored digits
[3,2,1,0]; the resulting value is nonzero, yet Display renders it as "0123",
not as the claimed leading-zero-free "123". -/
theorem C6_display_counterexample :
    NonSmallInt.parse ['0', '1', '2', '3'] = some (NonSmallInt.mk [3, 2, 1, 0]) ∧
    (NonSmallInt.mk [3, 2, 1, 0]).is_zero = false ∧
    (NonSmallInt.mk [3, 2, 1, 0]).display = ['0', '1', '2', '3'] ∧
    (NonSmallInt.mk [3, 2, 1, 0]).display ≠ ['1', '2', '3'] := by decide

/-- Claim C6, amended: a zero value (in particular any all-zero stored
vector) renders as "0"; a nonzero value renders ALL of its stored digits
most-significant first — including stored most-significant zero digits; a
value constructed from a native integer carries no such padding, so it
renders as the canonical decimal string. -/
theorem C6_display_amended {v : NonSmallInt} (hnz : v.is_zero = false) (n : Nat) :
    v.display = v.digits.reverse.map Nat.digitChar ∧
    (NonSmallInt.mk (List.replicate n 0)).display = ['0'] ∧
    (NonSmallInt.of n).display = natChars n := by
  refine ⟨?_, ?_, display_of n⟩
  · rw [NonSmallInt.display, hnz]
    rfl
  · rw [NonSmallInt.display, is_zero_replicate]
    rfl

/-- Witness for C6 at the parsed-"0123" value and n = 2. -/
theorem C6_display_amended_witness :
    (NonSmallInt.mk [3, 2, 1, 0]).is_zero = false ∧
    ((NonSmallInt.mk [3, 2, 1, 0]).display =
        (NonSmallInt.mk [3, 2, 1, 0]).digits.reverse.map Nat.digitChar ∧
      (NonSmallInt.mk (List.replicate 2 0)).display = ['0'] ∧
      (NonSmallInt.of 2).display = natChars 2) :=
  ⟨by decide, C6_display_amended (by decide) 2⟩

/-- Claim C7: the double-ended digit window is NOT exhausted when the back
cursor passes the front cursor.  On construct(321) with length 3, three back
reads yield 3, 2, 1 (the view should now be empty: next_back_ix has moved to
-1, below next_ix = 0), yet a subsequent front read still yields a digit
(some 1) instead of none, because the front guard compares next_ix against
next_back_ix cast to an unsigned machine word, and -1 wraps to 2^64 - 1. -/
theorem C7_window_cursor_crossing :
    (((NonSmallInt.of 321).iter_digits 3).next_back.1 = some 3) ∧
    (((NonSmallInt.of 321).iter_digits 3).next_back.2.next_back.1 = some 2) ∧
    (((NonSmallInt.of 321).iter_digits 3).next_back.2.next_back.2.next_back.1 = some 1) ∧
    (((NonSmallInt.of 321).iter_digits 3).next_back.2.next_back.2.next_back.2.next_back.1
      = none) ∧
    (((NonSmallInt.of 321).iter_digits 3).next_back.2.next_back.2.next_back.2.next.1
      = some 1) := by
  decide

/-- Claim C8: parsing returns no result exactly when the whitespace-trimmed
input contains a non-digit character — no partial value is ever produced —
and otherwise the parsed value stores the digit values in reverse reading
order (least-significant first). -/
theorem C8_parse_characterisation (s : List Char) :
    (NonSmallInt.parse s = none ↔ ∃ c ∈ trimChars s, c.isDigit = false) ∧
    ((∀ c ∈ trimChars s, c.isDigit = true) →
      NonSmallInt.parse s =
        some (NonSmallInt.mk (((trimChars s).map (fun c => c.toNat - 48)).reverse))) := by
  rw [parse_eq]
  by_cases h : (trimChars s).all Char.isDigit
  · rw [if_pos h]
    rw [List.all_eq_true] at h
    refine ⟨⟨?_, ?_⟩, fun _ => rfl⟩
    · intro hc
      simp at hc
    · rintro ⟨c, hc, hcd⟩
      rw [h c hc] at hcd
      simp at hcd
  · rw [if_neg h]
    rw [List.all_eq_true] at h
    push_neg at h
    obtain ⟨c, hc, hcd⟩ := h
    refine ⟨⟨fun _ => ⟨c, hc, by simpa using hcd⟩, fun _ => rfl⟩, ?_⟩
    intro hall
    exact absurd (hall c hc) hcd

/-- Claim C10: parsing the empty string or any all-whitespace string succeeds
and yields the zero value with an empty digit sequence. -/
theorem C10_whitespace_parses_to_zero {s : List Char}
    (hws : ∀ c ∈ s, c.isWhitespace = true) :
    NonSmallInt.parse s = some (NonSmallInt.mk []) ∧
    (NonSmallInt.mk []).is_zero = true ∧ (NonSmallInt.mk []).val = 0 := by
  have htrim : trimChars s = [] := by
    rw [trimChars]
    have h1 : s.dropWhile Char.isWhitespace = [] :=
      List.dropWhile_eq_nil_iff.mpr hws
    rw [h1]
    rfl
  rw [parse_eq, htrim]
  exact ⟨rfl, rfl, rfl⟩

/-- Witness for C10 on the one-character string " ". -/
theorem C10_whitespace_parses_to_zero_witness :
    (∀ c ∈ [' '], c.isWhitespace = true) ∧
    (NonSmallInt.parse [' '] = some (NonSmallInt.mk []) ∧
      (NonSmallInt.mk []).is_zero = true ∧ (NonSmallInt.mk []).val = 0) :=
  ⟨by decide, C10_whitespace_parses_to_zero (by decide)⟩

/-- The library equality as a decidable comparison of numeric values. -/
theorem eq_decide {a b : NonSmallInt} (ha : a.Valid) (hb : b.Valid) :
    a.eq b = decide (a.val = b.val) := by
  by_cases h : a.val = b.val
  · rw [decide_eq_true h]
    exact (eq_iff_val ha hb).mpr h
  · rw [decide_eq_false h, Bool.eq_false_iff]
    intro hc
    exact h ((eq_iff_val ha hb).mp hc)

/-- Claim C9: appending most-significant zero digits preserves library
equality; the all-zero and empty vectors are the zero value; parse("000123")
succeeds, stores [3,2,1,0,0,0], equals construct(123) and has significant
length 3; and equality-under-padding is preserved across every operation's
inputs: add, mul, scalar mul, eq, lt, cmp, checked sub, scalar division and
full division are congruent in ALL of their value operands simultaneously —
including a zero-padded divisor handed to the full division — under equality
of numeric values. -/
theorem C9_padding_invariance (l : List Nat) (j s : Nat) {a a2 b b2 : NonSmallInt}
    (ha : a.Valid) (ha2 : a2.Valid) (hb : b.Valid) (hb2 : b2.Valid)
    (hval : a.val = a2.val) (hbval : b.val = b2.val) :
    (NonSmallInt.mk (l ++ List.replicate j 0)).eq (NonSmallInt.mk l) = true ∧
    (NonSmallInt.mk (List.replicate j 0)).is_zero = true ∧
    (NonSmallInt.mk []).is_zero = true ∧
    NonSmallInt.parse ['0', '0', '0', '1', '2', '3'] =
      some (NonSmallInt.mk [3, 2, 1, 0, 0, 0]) ∧
    (NonSmallInt.mk [3, 2, 1, 0, 0, 0]).eq (NonSmallInt.of 123) = true ∧
    (NonSmallInt.mk [3, 2, 1, 0, 0, 0]).length = 3 ∧
    (a.add b).val = (a2.add b2).val ∧
    (a.mul b).val = (a2.mul b2).val ∧
    (a.mulU32 s).val = (a2.mulU32 s).val ∧
    a.eq b = a2.eq b2 ∧
    a.lt b = a2.lt b2 ∧
    a.cmp b = a2.cmp b2 ∧
    (a.safe_sub b).map NonSmallInt.val = (a2.safe_sub b2).map NonSmallInt.val ∧
    (a.div_u32 s).map (fun p => (p.1.val, p.2.val)) =
      (a2.div_u32 s).map (fun p => (p.1.val, p.2.val)) ∧
    (a.div_nsi b).map (fun p => (p.1.val, p.2.val)) =
      (a2.div_nsi b2).map (fun p => (p.1.val, p.2.val)) := by
  refine ⟨?_, is_zero_replicate j, by decide, by decide, by decide, by decide,
    ?_, ?_, ?_, ?_, ?_, ?_, ?_, ?_, ?_⟩
  · rw [NonSmallInt.eq]
    show (stripMSB (l ++ List.replicate j 0) == stripMSB l) = true
    rw [strip_append_replicate]
    simp
  · rw [(add_val ha hb).1, (add_val ha2 hb2).1, hval, hbval]
  · rw [(mul_val ha hb).1, (mul_val ha2 hb2).1, hval, hbval]
  · rw [(mulU32_val ha s).1, (mulU32_val ha2 s).1, hval]
  · rw [eq_decide ha hb, eq_decide ha2 hb2, hval, hbval]
  · rw [lt_iff_val ha hb, lt_iff_val ha2 hb2, hval, hbval]
  · rw [cmp_compare ha hb, cmp_compare ha2 hb2, hval, hbval]
  · rw [(safe_sub_val ha hb).1, (safe_sub_val ha2 hb2).1, hval, hbval]
  · by_cases hs : s = 0
    · rw [(div_u32_eq_none_iff a s).mpr hs, (div_u32_eq_none_iff a2 s).mpr hs]
    · obtain ⟨q, r, hd, hq, hr, _, _, _⟩ := div_u32_spec ha (Nat.pos_of_ne_zero hs)
      obtain ⟨q2, r2, hd2, hq2, hr2, _, _, _⟩ := div_u32_spec ha2 (Nat.pos_of_ne_zero hs)
      rw [hd, hd2]
      simp only [Option.map_some']
      rw [hq, hr, hq2, hr2, hval]
  · by_cases hz : b.is_zero = true
    · have hz2 : b2.is_zero = true := by
        rw [is_zero_iff_val hb2, ← hbval, ← is_zero_iff_val hb]
        exact hz
      rw [(div_nsi_eq_none_iff a b).mpr hz, (div_nsi_eq_none_iff a2 b2).mpr hz2]
    · have hbz : b.is_zero = false := Bool.eq_false_iff.mpr hz
      have hbz2 : b2.is_zero = false := by
        rw [Bool.eq_false_iff]
        intro h2
        rw [is_zero_iff_val hb2, ← hbval] at h2
        exact hz ((is_zero_iff_val hb).mpr h2)
      obtain ⟨q, r, hd, _, _, hq, hr⟩ := div_nsi_spec ha hb hbz
      obtain ⟨q2, r2, hd2, _, _, hq2, hr2⟩ := div_nsi_spec ha2 hb2 hbz2
      rw [hd, hd2]
      simp only [Option.map_some']
      rw [hq, hr, hq2, hr2, hval, hbval]

/-- Witness for C9 at l = [1,2], j = 2, s = 7, a = stored [0,0,0,0,1]
(value 10000), a2 = stored [0,0,0,0,1,0,0] (10000 with two padding zeros),
b = stored [3,7] (value 73), b2 = stored [3,7,0,0] (73 with two padding
zeros) — so the division congruence covers a zero-padded dividend AND a
zero-padded divisor through the full normalized long-division branch. -/
theorem C9_padding_invariance_witness :
    (NonSmallInt.mk [0, 0, 0, 0, 1]).Valid ∧
    (NonSmallInt.mk [0, 0, 0, 0, 1, 0, 0]).Valid ∧
    (NonSmallInt.mk [3, 7]).Valid ∧
    (NonSmallInt.mk [3, 7, 0, 0]).Valid ∧
    (NonSmallInt.mk [0, 0, 0, 0, 1]).val = (NonSmallInt.mk [0, 0, 0, 0, 1, 0, 0]).val ∧
    (NonSmallInt.mk [3, 7]).val = (NonSmallInt.mk [3, 7, 0, 0]).val ∧
    ((NonSmallInt.mk ([1, 2] ++ List.replicate 2 0)).eq (NonSmallInt.mk [1, 2]) = true ∧
      (NonSmallInt.mk (List.replicate 2 0)).is_zero = true ∧
      (NonSmallInt.mk []).is_zero = true ∧
      NonSmallInt.parse ['0', '0', '0', '1', '2', '3'] =
        some (NonSmallInt.mk [3, 2, 1, 0, 0, 0]) ∧
      (NonSmallInt.mk [3, 2, 1, 0, 0, 0]).eq (NonSmallInt.of 123) = true ∧
      (NonSmallInt.mk [3, 2, 1, 0, 0, 0]).length = 3 ∧
      ((NonSmallInt.mk [0, 0, 0, 0, 1]).add (NonSmallInt.mk [3, 7])).val =
        ((NonSmallInt.mk [0, 0, 0, 0, 1, 0, 0]).add (NonSmallInt.mk [3, 7, 0, 0])).val ∧
      ((NonSmallInt.mk [0, 0, 0, 0, 1]).mul (NonSmallInt.mk [3, 7])).val =
        ((NonSmallInt.mk [0, 0, 0, 0, 1, 0, 0]).mul (NonSmallInt.mk [3, 7, 0, 0])).val ∧
      ((NonSmallInt.mk [0, 0, 0, 0, 1]).mulU32 7).val =
        ((NonSmallInt.mk [0, 0, 0, 0, 1, 0, 0]).mulU32 7).val ∧
      (NonSmallInt.mk [0, 0, 0, 0, 1]).eq (NonSmallInt.mk [3, 7]) =
        (NonSmallInt.mk [0, 0, 0, 0, 1, 0, 0]).eq (NonSmallInt.mk [3, 7, 0, 0]) ∧
      (NonSmallInt.mk [0, 0, 0, 0, 1]).lt (NonSmallInt.mk [3, 7]) =
        (NonSmallInt.mk [0, 0, 0, 0, 1, 0, 0]).lt (NonSmallInt.mk [3, 7, 0, 0]) ∧
      (NonSmallInt.mk [0, 0, 0, 0, 1]).cmp (NonSmallInt.mk [3, 7]) =
        (NonSmallInt.mk [0, 0, 0, 0, 1, 0, 0]).cmp (NonSmallInt.mk [3, 7, 0, 0]) ∧
      ((NonSmallInt.mk [0, 0, 0, 0, 1]).safe_sub (NonSmallInt.mk [3, 7])).map
          NonSmallInt.val =
        ((NonSmallInt.mk [0, 0, 0, 0, 1, 0, 0]).safe_sub
          (NonSmallInt.mk [3, 7, 0, 0])).map NonSmallInt.val ∧
      ((NonSmallInt.mk [0, 0, 0, 0, 1]).div_u32 7).map (fun p => (p.1.val, p.2.val)) =
        ((NonSmallInt.mk [0, 0, 0, 0, 1, 0, 0]).div_u32 7).map
          (fun p => (p.1.val, p.2.val)) ∧
      ((NonSmallInt.mk [0, 0, 0, 0, 1]).div_nsi (NonSmallInt.mk [3, 7])).map
          (fun p => (p.1.val, p.2.val)) =
        ((NonSmallInt.mk [0, 0, 0, 0, 1, 0, 0]).div_nsi (NonSmallInt.mk [3, 7, 0, 0])).map
          (fun p => (p.1.val, p.2.val))) :=
  ⟨mk_valid (by decide), mk_valid (by decide), mk_valid (by decide), mk_valid (by decide),
    by decide, by decide,
    C9_padding_invariance [1, 2] 2 7 (mk_valid (by decide)) (mk_valid (by decide))
      (mk_valid (by decide)) (mk_valid (by decide)) (by decide) (by decide)⟩
